import Mathlib

/-!
Verification of the location-tracked JSON parsing core of the NetWiz backend
(`netwiz_backend/json_tracker`): `create_location_mapping.py`, `helpers.py`,
`self_test.py`, `types.py`, `tracked_json.py`.

Python strings are modelled as `List Char`; Python `dict`s as association
lists with insert-or-overwrite semantics preserving insertion order; Python
exceptions as an `Except PyExc` result.  The third-party `json-source-map`
library (the `calculate` function) and the standard-library `json.loads` are
not part of the repository; they are modelled from the specification as a
single recursive-descent JSON parser that records, for every node, its
absolute start/end character offsets (end exclusive, the convention pinned
down by the repository's own tests `test_raw_text_extraction` and
`test_single_value_json`) together with RFC 6901 pointers, and reports a
failure offset for malformed input.
-/

abbrev Str := List Char

/-- Shorthand to turn a Lean string literal into the `List Char` model of a
Python `str`. -/
def S (s : String) : Str := s.data

/-- Python slice `text[a:b]` for non-negative bounds: clamps, empty if `a ≥ b`. -/
def pySlice (cs : Str) (a b : Nat) : Str := (cs.take b).drop a

/-- The characters Python's `str.splitlines` treats as line boundaries. -/
def isLineBoundary (c : Char) : Bool :=
  c = '\n' || c = '\r' || c = '\x0b' || c = '\x0c' ||
  c = '\x1c' || c = '\x1d' || c = '\x1e' || c = '\x85' ||
  c = '\u2028' || c = '\u2029'

/-- Python `text.splitlines(keepends=True)`: every line keeps its terminator;
`"\r\n"` counts as a single boundary. -/
def splitKeep : Str → List Str
  | [] => []
  | '\r' :: '\n' :: cs => ['\r', '\n'] :: splitKeep cs
  | c :: cs =>
    if isLineBoundary c then [c] :: splitKeep cs
    else
      match splitKeep cs with
      | [] => [[c]]
      | l :: ls => (c :: l) :: ls

/-- Python `text.splitlines()` (terminators removed). -/
def splitNoKeep : Str → List Str
  | [] => []
  | '\r' :: '\n' :: cs => [] :: splitNoKeep cs
  | c :: cs =>
    if isLineBoundary c then [] :: splitNoKeep cs
    else
      match splitNoKeep cs with
      | [] => [[c]]
      | l :: ls => (c :: l) :: ls

/-- Helper for `lineStartsOf`: the running start offsets of a list of lines. -/
def startsFrom (acc : Nat) : List Str → List Nat
  | [] => []
  | l :: ls => acc :: startsFrom (acc + l.length) ls

/-- The 0-based absolute start offset of every 1-based line, exactly as
`self_test_locations` precomputes it (keepends lines; `[0]` for empty input). -/
def lineStartsOf (cs : Str) : List Nat :=
  match splitKeep cs with
  | [] => [0]
  | lines => startsFrom 0 lines

/-- `abs_from_line_col` from `self_test.py`: convert a 1-based line/column to a
0-based absolute index through the line-start table, clamping the line. -/
def absFromLineCol (ls : List Nat) (line col : Nat) : Nat :=
  ls.getD (max 1 (min line ls.length) - 1) 0 + (col - 1)

/-- Largest index `i` of the line-start table with `ls[i] ≤ off` (the table is
strictly increasing and starts at 0). -/
def findLineIdx : List Nat → Nat → Nat
  | [], _ => 0
  | [_], _ => 0
  | _ :: b :: rest, off => if off < b then 0 else 1 + findLineIdx (b :: rest) off

/-- The 0-based (line, column) of a 0-based offset, through the text's
line-start table.  Modelled from the spec: the builder's per-node line/column
fields are "redundant with the absolute offsets but independently derivable"
through the table of per-line starting offsets. -/
def lineColOfOffset (cs : Str) (off : Nat) : Nat × Nat :=
  let ls := lineStartsOf cs
  let i := findLineIdx ls off
  (i, off - ls.getD i 0)

/-- `_line_length_at` from `helpers.py`. -/
def lineLengthAt (text : Str) (line : Nat) : Nat :=
  let lines := match splitNoKeep text with | [] => [[]] | ls => ls
  let idx := max 1 (min line lines.length) - 1
  if idx < lines.length then (lines.getD idx []).length else 1

/-- Number of `'\n'` characters in `text[0:pos]`; Python's
`json.JSONDecodeError` computes `lineno` as this count plus one. -/
def countNLBefore (text : Str) (pos : Nat) : Nat :=
  ((text.take pos).filter (· = '\n')).length

/-- `doc.rfind('\n', 0, pos)` from Python, as an `Option`. -/
def lastNLBefore (text : Str) (pos : Nat) : Option Nat :=
  ((List.range pos).filter (fun i => text.getD i ' ' = '\n')).getLast?

/-- Python `JSONDecodeError.lineno` for a failure at 0-based `pos`. -/
def errLineno (text : Str) (pos : Nat) : Nat := countNLBefore text pos + 1

/-- Python `JSONDecodeError.colno` for a failure at 0-based `pos`. -/
def errColno (text : Str) (pos : Nat) : Nat :=
  match lastNLBefore text pos with
  | none => pos + 1
  | some i => pos - i

/-- Python `str.startswith`. -/
def pyStarts (s p : Str) : Bool := p.isPrefixOf s

/-- Python `str.endswith`. -/
def pyEnds (s p : Str) : Bool := p.isSuffixOf s

/-- Python `s.split(sep)` for a single-character separator (`"".split` gives
`[""]`). -/
def splitOnCh (sep : Char) : Str → List Str
  | [] => [[]]
  | c :: cs =>
    if c = sep then [] :: splitOnCh sep cs
    else
      match splitOnCh sep cs with
      | [] => [[c]]
      | l :: ls => (c :: l) :: ls

/-- Python `sep.join(parts)`. -/
def joinWith (sep : Str) : List Str → Str
  | [] => []
  | [p] => p
  | p :: ps => p ++ sep ++ joinWith sep ps

/-- Fuel-driven worker for `pyReplace` (the fuel bounds the number of
consumed characters; `s.length` always suffices). -/
def pyReplaceGo (fuel : Nat) (s pat rep : Str) : Str :=
  match fuel with
  | 0 => s
  | fuel + 1 =>
    match s with
    | [] => []
    | c :: cs =>
      if pat ≠ [] ∧ pat.isPrefixOf (c :: cs) then
        rep ++ pyReplaceGo fuel ((c :: cs).drop pat.length) pat rep
      else c :: pyReplaceGo fuel cs pat rep

/-- Python `s.replace(pat, rep)`: leftmost, non-overlapping.  Only ever used
with a nonempty `pat`; for an empty `pat` this returns `s` unchanged. -/
def pyReplace (s pat rep : Str) : Str := pyReplaceGo s.length s pat rep

/-- Decimal representation of a `Nat`, as Python `str(n)`. -/
def toDec (n : Nat) : Str := (Nat.repr n).data

/-- Python `str(i)` for an `int`. -/
def intRepr (i : Int) : Str :=
  if i < 0 then '-' :: toDec i.natAbs else toDec i.natAbs

/-- Python `int(s)`: optional sign followed by at least one digit (the
surrounding-whitespace and underscore liberties of Python's `int` are not
exercised by pointer segments). -/
def pyInt? (s : Str) : Option Int :=
  let (sign, ds) :=
    match s with
    | '-' :: t => ((-1 : Int), t)
    | '+' :: t => ((1 : Int), t)
    | t => ((1 : Int), t)
  if ds = [] ∨ ¬ ds.all (·.isDigit) then none
  else some (sign * (ds.foldl (fun a c => a * 10 + (c.toNat - '0'.toNat)) 0 : Nat))

/-- ASCII whitespace strip, as Python `str.strip()` on JSON-ish text. -/
def pyStrip (s : Str) : Str :=
  let ws := fun c => c = ' ' || c = '\t' || c = '\n' || c = '\r' || c = '\x0b' || c = '\x0c'
  (s.dropWhile ws).reverse.dropWhile ws |>.reverse

/-! ### The JSON value tree and the positioned parser

Model of `json.loads` plus `json_source_map.calculate` (neither is part of
the repository; modelled from the spec's Source-Map Builder contract:
"per-node {startOffset, endOffset, startLine, startCol, endLine, endCol}",
one entry per value plus one per object key, RFC 6901 pointers).  End
offsets are exclusive.  Number values keep their raw source characters;
distinguishing `int` from `float` is irrelevant to the builder, which only
classifies both as kind `"number"`. -/

inductive JVal where
  | null
  | bool (b : Bool)
  | num (raw : Str)
  | str (s : Str)
  | arr (elems : List JVal)
  | obj (mems : List (Str × JVal))

/-- One entry of the source map: the pointer (as unescaped segments), the
value span (end exclusive) and, for object members, the key-token span. -/
structure SMEntry where
  segs : List Str
  vs : Nat
  ve : Nat
  keySpan : Option (Nat × Nat)
deriving DecidableEq

/-- JSON inter-token whitespace (`json.loads` accepts space, tab, LF, CR). -/
def jsonWs (c : Char) : Bool := c = ' ' || c = '\t' || c = '\n' || c = '\r'

/-- Skip whitespace, tracking the absolute offset. -/
def skipWs : Nat → Str → Nat × Str
  | pos, c :: cs => if jsonWs c then skipWs (pos + 1) cs else (pos, c :: cs)
  | pos, [] => (pos, [])

/-- Hex digit value. -/
def hexVal? (c : Char) : Option Nat :=
  if '0' ≤ c ∧ c ≤ '9' then some (c.toNat - '0'.toNat)
  else if 'a' ≤ c ∧ c ≤ 'f' then some (c.toNat - 'a'.toNat + 10)
  else if 'A' ≤ c ∧ c ≤ 'F' then some (c.toNat - 'A'.toNat + 10)
  else none

/-- Single-character string escapes of JSON. -/
def escChar? (c : Char) : Option Char :=
  match c with
  | '"' => some '"'
  | '\\' => some '\\'
  | '/' => some '/'
  | 'b' => some '\x08'
  | 'f' => some '\x0c'
  | 'n' => some '\n'
  | 'r' => some '\r'
  | 't' => some '\t'
  | _ => none

/-- Body of a JSON string, after the opening quote at `pos - 1`: returns the
decoded content, the offset just past the closing quote, and the rest.
Surrogate-pair combination is not modelled; a `\uXXXX` escape denoting an
invalid scalar decodes to the replacement of `Char.ofNat`. -/
def strBody (pos : Nat) (cs : Str) : Except Nat (Str × Nat × Str) :=
  match cs with
  | [] => .error pos
  | '"' :: rest => .ok ([], pos + 1, rest)
  | '\\' :: rest =>
    match rest with
    | [] => .error (pos + 1)
    | 'u' :: c1 :: c2 :: c3 :: c4 :: rest' =>
      match hexVal? c1, hexVal? c2, hexVal? c3, hexVal? c4 with
      | some a, some b, some c, some d =>
        (strBody (pos + 6) rest').map
          (fun r => (Char.ofNat (((a * 16 + b) * 16 + c) * 16 + d) :: r.1, r.2))
      | _, _, _, _ => .error (pos + 1)
    | e :: rest' =>
      match escChar? e with
      | some d => (strBody (pos + 2) rest').map (fun r => (d :: r.1, r.2))
      | none => .error (pos + 1)
  | c :: rest =>
    if c.toNat < 32 then .error pos
    else (strBody (pos + 1) rest).map (fun r => (c :: r.1, r.2))

/-- A JSON string literal starting at `pos` (which must hold `'"'`). -/
def parseString (pos : Nat) (cs : Str) : Except Nat (Str × Nat × Str) :=
  match cs with
  | '"' :: rest => strBody (pos + 1) rest
  | _ => .error pos

/-- Longest digit run. -/
def digitRun (pos : Nat) (cs : Str) : Str × Nat × Str :=
  match cs with
  | c :: rest =>
    if c.isDigit then
      let (ds, p', r') := digitRun (pos + 1) rest
      (c :: ds, p', r')
    else ([], pos, cs)
  | [] => ([], pos, cs)

/-- Integer part of a JSON number: optional `'-'`, then `0` or a nonzero
digit run (the regex `-?(0|[1-9]\d*)`); `none` if there is no match. -/
def intPart (pos : Nat) (cs : Str) : Option (Str × Nat × Str) :=
  let (sgn, p1, cs1) :=
    match cs with
    | '-' :: t => ((['-'] : Str), pos + 1, t)
    | _ => (([] : Str), pos, cs)
  match cs1 with
  | '0' :: t => some (sgn ++ ['0'], p1 + 1, t)
  | c :: _ =>
    if c.isDigit then
      let (ds, p2, cs2) := digitRun p1 cs1
      some (sgn ++ ds, p2, cs2)
    else none
  | [] => none

/-- Fraction part `(\.\d+)?`: empty if there is no full match. -/
def fracPart (pos : Nat) (cs : Str) : Str × Nat × Str :=
  match cs with
  | '.' :: c :: rest =>
    if c.isDigit then
      let (ds, p', r') := digitRun (pos + 2) rest
      ('.' :: c :: ds, p', r')
    else ([], pos, cs)
  | _ => ([], pos, cs)

/-- The optional sign after the `e`/`E` of an exponent (the `e` sits at
`pos`): the sign characters taken, the offset after them, and the rest. -/
def expSign (pos : Nat) (rest : Str) : Str × Nat × Str :=
  match rest with
  | '+' :: t => ((['+'] : Str), pos + 2, t)
  | '-' :: t => ((['-'] : Str), pos + 2, t)
  | _ => (([] : Str), pos + 1, rest)

/-- Exponent part `([eE][-+]?\d+)?`: empty if there is no full match. -/
def expPart (pos : Nat) (cs : Str) : Str × Nat × Str :=
  match cs with
  | e :: rest =>
    if e = 'e' ∨ e = 'E' then
      let (sgn, p1, cs1) := expSign pos rest
      match cs1 with
      | c :: _ =>
        if c.isDigit then
          let (ds, p2, cs2) := digitRun p1 cs1
          (e :: sgn ++ ds, p2, cs2)
        else ([], pos, cs)
      | [] => ([], pos, cs)
    else ([], pos, cs)
  | [] => ([], pos, cs)

/-- A JSON number at `pos` (maximal regex match, as Python's `json` scanner);
fails at `pos` when no number starts here. -/
def parseNumber (pos : Nat) (cs : Str) : Except Nat (Str × Nat × Str) :=
  match intPart pos cs with
  | none => .error pos
  | some (ip, p1, cs1) =>
    let (fp, p2, cs2) := fracPart p1 cs1
    let (ep, p3, cs3) := expPart p2 cs2
    .ok (ip ++ fp ++ ep, p3, cs3)

/-- The parsing mode of `parseCore`: a single value (with its pointer
segments and optional key span), the member list of an object from the first
key onward, or the element list of an array from index `idx` onward. -/
inductive PMode where
  | value (segs : List Str) (kp : Option (Nat × Nat))
  | members (segs : List Str)
  | elems (segs : List Str) (idx : Nat)

/-- The result of `parseCore`, by mode. -/
inductive PRes where
  | val (v : JVal)
  | mems (ms : List (Str × JVal))
  | elems (xs : List JVal)

/-- The recursive core of the positioned JSON parser (one function so that
the recursion is structural on the fuel).  In `value` mode it parses one JSON
value beginning at `pos` (leading whitespace allowed) and returns the offset
just past it, the remaining input, and the source-map entries of the subtree
in document order, the node's own entry first, every span end-exclusive.  In
`members` mode `pos` must sit on the `'"'` of the next object key; in `elems`
mode on the start of the next array element (whitespace already skipped). -/
def parseCore (fuel : Nat) (mode : PMode) (pos : Nat) (cs : Str) :
    Except Nat (PRes × Nat × Str × List SMEntry) :=
  match fuel with
  | 0 => .error pos
  | fuel + 1 =>
    match mode with
    | .value segs kp =>
      let (p1, cs1) := skipWs pos cs
      match cs1 with
      | [] => .error p1
      | '\x7b' :: rest =>
        let (p2, cs2) := skipWs (p1 + 1) rest
        match cs2 with
        | '\x7d' :: r => .ok (.val (.obj []), p2 + 1, r, [⟨segs, p1, p2 + 1, kp⟩])
        | _ =>
          match parseCore fuel (.members segs) p2 cs2 with
          | .ok (.mems ms, p', rest', es) =>
            .ok (.val (.obj ms), p', rest', ⟨segs, p1, p', kp⟩ :: es)
          | .ok (_, p', _, _) => .error p'
          | .error e => .error e
      | '[' :: rest =>
        let (p2, cs2) := skipWs (p1 + 1) rest
        match cs2 with
        | ']' :: r => .ok (.val (.arr []), p2 + 1, r, [⟨segs, p1, p2 + 1, kp⟩])
        | _ =>
          match parseCore fuel (.elems segs 0) p2 cs2 with
          | .ok (.elems xs, p', rest', es) =>
            .ok (.val (.arr xs), p', rest', ⟨segs, p1, p', kp⟩ :: es)
          | .ok (_, p', _, _) => .error p'
          | .error e => .error e
      | '"' :: _ =>
        match parseString p1 cs1 with
        | .ok (s, p2, rest') => .ok (.val (.str s), p2, rest', [⟨segs, p1, p2, kp⟩])
        | .error e => .error e
      | 't' :: 'r' :: 'u' :: 'e' :: r => .ok (.val (.bool true), p1 + 4, r, [⟨segs, p1, p1 + 4, kp⟩])
      | 'f' :: 'a' :: 'l' :: 's' :: 'e' :: r => .ok (.val (.bool false), p1 + 5, r, [⟨segs, p1, p1 + 5, kp⟩])
      | 'n' :: 'u' :: 'l' :: 'l' :: r => .ok (.val .null, p1 + 4, r, [⟨segs, p1, p1 + 4, kp⟩])
      | c :: _ =>
        if c = '-' ∨ c.isDigit then
          match parseNumber p1 cs1 with
          | .ok (raw, p2, rest') => .ok (.val (.num raw), p2, rest', [⟨segs, p1, p2, kp⟩])
          | .error e => .error e
        else .error p1
    | .members segs =>
      match cs with
      | '"' :: _ =>
        match parseString pos cs with
        | .error e => .error e
        | .ok (k, pk, cs') =>
          let (p3, cs3) := skipWs pk cs'
          match cs3 with
          | ':' :: r =>
            match parseCore fuel (.value (segs ++ [k]) (some (pos, pk))) (p3 + 1) r with
            | .ok (.val v, p4, cs4, es) =>
              let (p5, cs5) := skipWs p4 cs4
              match cs5 with
              | ',' :: r2 =>
                let (p6, cs6) := skipWs (p5 + 1) r2
                match parseCore fuel (.members segs) p6 cs6 with
                | .ok (.mems ms, p', rest, es') => .ok (.mems ((k, v) :: ms), p', rest, es ++ es')
                | .ok (_, p', _, _) => .error p'
                | .error e => .error e
              | '\x7d' :: r2 => .ok (.mems [(k, v)], p5 + 1, r2, es)
              | _ => .error p5
            | .ok (_, p4, _, _) => .error p4
            | .error e => .error e
          | _ => .error p3
      | _ => .error pos
    | .elems segs idx =>
      match parseCore fuel (.value (segs ++ [toDec idx]) none) pos cs with
      | .ok (.val v, p4, cs4, es) =>
        let (p5, cs5) := skipWs p4 cs4
        match cs5 with
        | ',' :: r2 =>
          match parseCore fuel (.elems segs (idx + 1)) (p5 + 1) r2 with
          | .ok (.elems xs, p', rest, es') => .ok (.elems (v :: xs), p', rest, es ++ es')
          | .ok (_, p', _, _) => .error p'
          | .error e => .error e
        | ']' :: r2 => .ok (.elems [v], p5 + 1, r2, es)
        | _ => .error p5
      | .ok (_, p4, _, _) => .error p4
      | .error e => .error e

/-- Parse one JSON value (see `parseCore`). -/
def parseValue (fuel : Nat) (segs : List Str) (kp : Option (Nat × Nat))
    (pos : Nat) (cs : Str) : Except Nat (JVal × Nat × Str × List SMEntry) :=
  match parseCore fuel (.value segs kp) pos cs with
  | .ok (.val v, p, r, es) => .ok (v, p, r, es)
  | .ok (_, p, _, _) => .error p
  | .error e => .error e

/-- Model of `json.loads(text)` combined with `json_source_map.calculate(text)`
(modelled from the spec; both consume the same grammar).  On success: the
value tree and the per-node source-map entries; on failure: the 0-based
failure offset. -/
def calculate (text : Str) : Except Nat (JVal × List SMEntry) :=
  match parseValue (2 * text.length + 8) [] none 0 text with
  | .error e => .error e
  | .ok (v, p, rest, es) =>
    let (p2, rest2) := skipWs p rest
    match rest2 with
    | [] => .ok (v, es)
    | _ => .error p2

/-- `json.loads` alone. -/
def jsonLoads (text : Str) : Except Nat JVal := (calculate text).map (·.1)

/-! ### `types.py`: `LocationInfo` and its pydantic validation -/

/-- Python exceptions that the `json_tracker` code can raise. -/
inductive PyExc where
  | validationError
  | decodeError (pos : Nat)
  | keyError (k : Str)
  | typeError
  | indexError
  | valueError
deriving DecidableEq

/-- `LocationInfo` from `types.py`: the parent chain (oldest first), the key,
the kind string, and the six 1-based position fields. -/
inductive LocationInfo where
  | mk (parents : List LocationInfo) (key : Str) (kind : Str)
      (start_character_number start_line_number start_line_character_number
       end_character_number end_line_number end_line_character_number : Nat)

def LocationInfo.parents : LocationInfo → List LocationInfo
  | .mk ps _ _ _ _ _ _ _ _ => ps

def LocationInfo.key : LocationInfo → Str
  | .mk _ k _ _ _ _ _ _ _ => k

def LocationInfo.kind : LocationInfo → Str
  | .mk _ _ kd _ _ _ _ _ _ => kd

def LocationInfo.start_character_number : LocationInfo → Nat
  | .mk _ _ _ a _ _ _ _ _ => a

def LocationInfo.start_line_number : LocationInfo → Nat
  | .mk _ _ _ _ b _ _ _ _ => b

def LocationInfo.start_line_character_number : LocationInfo → Nat
  | .mk _ _ _ _ _ c _ _ _ => c

def LocationInfo.end_character_number : LocationInfo → Nat
  | .mk _ _ _ _ _ _ d _ _ => d

def LocationInfo.end_line_number : LocationInfo → Nat
  | .mk _ _ _ _ _ _ _ e _ => e

def LocationInfo.end_line_character_number : LocationInfo → Nat
  | .mk _ _ _ _ _ _ _ _ f => f

/-- The derived `level` property: `len(self.parents)`. -/
def LocationInfo.level (l : LocationInfo) : Nat := l.parents.length

/-- Replace the `parents` field (the second pass's `loc.parents = ...`). -/
def LocationInfo.withParents : LocationInfo → List LocationInfo → LocationInfo
  | .mk _ k kd a b c d e f, ps => .mk ps k kd a b c d e f

mutual

/-- `LocationInfo.__eq__` from `types.py`: field-wise comparison, recursing
into the parent lists. -/
def locEq : LocationInfo → LocationInfo → Bool
  | .mk ps k kd a b c d e f, .mk ps' k' kd' a' b' c' d' e' f' =>
    k == k' && kd == kd' && a == a' && d == d' && b == b' && c == c' &&
    e == e' && f == f' && locEqList ps ps'

/-- Python list equality over `LocationInfo.__eq__`. -/
def locEqList : List LocationInfo → List LocationInfo → Bool
  | [], [] => true
  | x :: xs, y :: ys => locEq x y && locEqList xs ys
  | _, _ => false

end

/-- Constructing a `LocationInfo` through pydantic: every one of the six
position fields carries a `ge=1` constraint, and violating any of them raises
a validation error. -/
def mkLocationInfo (parents : List LocationInfo) (key kind : Str)
    (scn sln slcn ecn eln elcn : Nat) : Except PyExc LocationInfo :=
  if 1 ≤ scn ∧ 1 ≤ sln ∧ 1 ≤ slcn ∧ 1 ≤ ecn ∧ 1 ≤ eln ∧ 1 ≤ elcn then
    .ok (.mk parents key kind scn sln slcn ecn eln elcn)
  else .error .validationError

/-! ### `helpers.py` -/

/-- `_unescape_pointer_token`: RFC 6901 unescaping, `~1` then `~0`. -/
def unescapeTok (t : Str) : Str :=
  pyReplace (pyReplace t (S "~1") (S "/")) (S "~0") (S "~")

/-- `_infer_kind`: classify a parsed value (`bool` is tested before `int`). -/
def inferKind : JVal → Str
  | .obj _ => S "object"
  | .arr _ => S "list"
  | .null => S "null"
  | .bool _ => S "boolean"
  | .num _ => S "number"
  | .str _ => S "string"

/-- `_last_segment`: the last dot-separated segment of a path. -/
def lastSegment (p : Str) : Str :=
  if p = S "$" then S "$" else (splitOnCh '.' p).getLastD []

/-- `_ancestors_of`: all strict-prefix ancestor paths, root first. -/
def ancestorsOf (p : Str) : List Str :=
  if p = S "$" then []
  else
    let parts := splitOnCh '.' p
    (List.range' 1 (parts.length - 1)).map (fun i => joinWith (S ".") (parts.take i))

/-- Python `lst[i]` for an `int` index: negative indices wrap; out of range is
an `IndexError`. -/
def pyListIdx? (len : Nat) (i : Int) : Option Nat :=
  if 0 ≤ i then (if i < (len : Int) then some i.toNat else none)
  else (if (-i) ≤ (len : Int) then some (len - (-i).toNat) else none)

/-- Python `dict[k]` for a `dict` built by `json.loads`: duplicate keys keep
the value assigned last. -/
def lookupLast (mems : List (Str × JVal)) (k : Str) : Option JVal :=
  (mems.filter (fun m => m.1 = k)).getLast?.map (·.2)

/-- `_resolve_pointer` from `helpers.py`: `""` and `"/"` return the whole
document; otherwise `pointer.lstrip("/")` is split on `"/"`, each token is
RFC-unescaped, and the steps are applied with `cur[int(key)]` on lists and
`cur[key]` otherwise (so a `TypeError` on primitives, a `KeyError` on missing
object keys, a `ValueError` on non-numeric list indices). -/
def resolveSteps : JVal → List Str → Except PyExc JVal
  | cur, [] => .ok cur
  | cur, part :: rest =>
    let key := unescapeTok part
    match cur with
    | .arr xs =>
      match pyInt? key with
      | none => .error .valueError
      | some i =>
        match pyListIdx? xs.length i with
        | some idx =>
          match xs.get? idx with
          | some v => resolveSteps v rest
          | none => .error .indexError
        | none => .error .indexError
    | .obj mems =>
      match lookupLast mems key with
      | some v => resolveSteps v rest
      | none => .error (.keyError key)
    | _ => .error .typeError

/-- `_resolve_pointer` (see `resolveSteps`). -/
def resolvePointer (data : JVal) (ptr : Str) : Except PyExc JVal :=
  if ptr = [] ∨ ptr = ['/'] then .ok data
  else resolveSteps data (splitOnCh '/' (ptr.dropWhile (· = '/')))

/-! ### `create_location_mapping.py` -/

/-- RFC 6901 escaping of one pointer token (`~` → `~0`, `/` → `~1`), as the
source-map library produces pointers. -/
def escTok (s : Str) : Str :=
  (s.map (fun c => if c = '~' then S "~0" else if c = '/' then S "~1" else [c])).flatten

/-- The pointer string of an entry, from its unescaped segments. -/
def ptrStrOfSegs (segs : List Str) : Str :=
  (segs.map (fun s => '/' :: escTok s)).flatten

/-- `pointer_to_path` from `create_location_mapping.py`: `""` → `"$"`;
otherwise `lstrip("/")`, split on `"/"`, unescape each token and join behind
`"$."`. -/
def pointerToPath (ptr : Str) : Str :=
  if ptr = [] then S "$"
  else
    let parts := splitOnCh '/' (ptr.dropWhile (· = '/'))
    let out := parts.foldl
      (fun (acc : List Str) p =>
        let key := unescapeTok p
        acc ++ [if acc = [] then key else '.' :: key]) []
    S "$." ++ out.flatten

/-- The path→`LocationInfo` dictionary: an association list with Python
`dict` semantics (assignment to a present key overwrites in place, new keys
append). -/
abbrev PathMap := List (Str × LocationInfo)

/-- `dict.get`. -/
def dfind? (m : PathMap) (k : Str) : Option LocationInfo :=
  (m.find? (fun e => e.1 = k)).map (·.2)

/-- `dict.__setitem__`. -/
def dinsert (m : PathMap) (k : Str) (v : LocationInfo) : PathMap :=
  match m with
  | [] => [(k, v)]
  | (k', v') :: rest => if k' = k then (k, v) :: rest else (k', v') :: dinsert rest k v

/-- The first pass of `create_location_mapping`: one `LocationInfo` per value
entry (kind from `_resolve_pointer` + `_infer_kind`) and one per key entry
(at `path + ".__key__"`), parents left empty.  The guard
`entry.value_start and entry.value_end` of the source is always true, since
the library's `Location` objects are truthy. -/
def buildStep (text : Str) (data : JVal) (m : PathMap) (e : SMEntry) :
    Except PyExc PathMap := do
  let ptr := ptrStrOfSegs e.segs
  let dotPath := pointerToPath ptr
  let val ← resolvePointer data ptr
  let vloc ← mkLocationInfo [] (lastSegment dotPath) (inferKind val)
    (e.vs + 1) ((lineColOfOffset text e.vs).1 + 1) ((lineColOfOffset text e.vs).2 + 1)
    (e.ve + 1) ((lineColOfOffset text e.ve).1 + 1) ((lineColOfOffset text e.ve).2 + 1)
  let m := dinsert m dotPath vloc
  match e.keySpan with
  | some (ks, ke) => do
    let kloc ← mkLocationInfo [] (lastSegment dotPath) (S "key")
      (ks + 1) ((lineColOfOffset text ks).1 + 1) ((lineColOfOffset text ks).2 + 1)
      (ke + 1) ((lineColOfOffset text ke).1 + 1) ((lineColOfOffset text ke).2 + 1)
    pure (dinsert m (dotPath ++ S ".__key__") kloc)
  | none => pure m

def buildRaw (text : Str) (data : JVal) (entries : List SMEntry) :
    Except PyExc PathMap :=
  entries.foldlM (buildStep text data) []

/-- The linked ancestor chain over a root-first list of ancestor paths: each
found location carries, as its own parents, the chain accumulated before it.
This is the fixed point the source's in-place second pass
(`loc.parents = parents_chain` over shared objects) produces: an ancestor's
strict-prefix ancestors are exactly the earlier entries of the same prefix
list, so the chain accumulated so far is precisely that ancestor's own linked
parent list. -/
def linkFold (m : PathMap) (prefixes : List Str) : List LocationInfo :=
  prefixes.foldl
    (fun chain a =>
      match dfind? m a with
      | none => chain
      | some loc => chain ++ [loc.withParents chain])
    []

/-- The fully linked location at path `p`: its raw fields with `parents`
filled from the locations found at `_ancestors_of(p)` (oldest first). -/
def linkedAt (m : PathMap) (p : Str) : Option LocationInfo :=
  (dfind? m p).map (fun loc => loc.withParents (linkFold m (ancestorsOf p)))

/-- The second pass of `create_location_mapping` over the whole map. -/
def linkMap (m : PathMap) : PathMap :=
  m.map (fun pl => (pl.1, (linkedAt m pl.1).getD pl.2))

/-- `create_location_mapping(json_text, raise_on_error, self_test)`.
The `self_test` flag only triggers `self_test_locations`, whose returned
problem list the source discards, so it does not affect the result.  On a
parse failure the synthetic `$.__error__` location (with its best-effort
root parent) is built; `raise_on_error` then selects raising
`TrackedJSONDecodeError` over returning the single-entry map. -/
def createLocationMapping (text : Str) (raiseOnError : Bool) :
    Except PyExc PathMap :=
  match calculate text with
  | .error epos => do
    let eline := errLineno text epos
    let ecol := errColno text epos
    let rootLoc ← mkLocationInfo [] (S "$") (S "object")
      1 1 1 (max 1 text.length) eline ecol
    let errLoc ← mkLocationInfo [rootLoc] (S "__error__") (S "string")
      (epos + 1) eline ecol
      (if 0 < text.length then min text.length (epos + 1) + 1 else 1)
      eline (min (ecol + 1) (max 1 (lineLengthAt text eline)))
    if raiseOnError then .error (.decodeError epos)
    else .ok [(S "$.__error__", errLoc)]
  | .ok (data, entries) => do
    let raw ← buildRaw text data entries
    .ok (linkMap raw)

/-! ### `self_test.py` -/

/-- `json.dumps` of a string value (default `ensure_ascii=True`): quotes,
backslash escapes, `\uXXXX` for control and non-ASCII characters (astral
surrogate pairs are not modelled; no claim exercises them). -/
def jsonDumps (s : Str) : Str :=
  let hex4 := fun (n : Nat) =>
    let d := fun (k : Nat) => (S "0123456789abcdef").getD (k % 16) '0'
    ['\\', 'u', d (n / 4096), d (n / 256), d (n / 16), d n]
  '"' :: (s.map (fun c =>
    if c = '"' then S "\\\""
    else if c = '\\' then S "\\\\"
    else if c = '\n' then S "\\n"
    else if c = '\r' then S "\\r"
    else if c = '\t' then S "\\t"
    else if c = '\x08' then S "\\b"
    else if c = '\x0c' then S "\\f"
    else if c.toNat < 32 ∨ 127 ≤ c.toNat then hex4 c.toNat
    else [c])).flatten ++ ['"']

/-- The problem strings of `self_test_locations` carry formatted reprs of the
offending data; the model keeps the path and the fixed message prefix, which
is all any claim observes (a problem is reported iff the check fails). -/
def problemStr (path : Str) (msg : String) : Str := path ++ S ": " ++ S msg

/-- `self_test_locations` from `self_test.py`, transcribed check for check:
the absolute-offset slice versus the line/column slice (via the precomputed
line-start table), the key-content check, and the value branch guarded by
`loc.kind == "value"` (a kind the `Kind` literal type never produces, so its
standalone-parse and span-containment checks are dead code, transcribed
faithfully).  Returns the list of human-readable problems; no mutation. -/
def selfTestLocations (json_text : Str) (locations : PathMap) : List Str :=
  let line_starts := lineStartsOf json_text
  let valueKinds := [S "object", S "list", S "null", S "string", S "boolean", S "number"]
  let value_paths :=
    (locations.filter (fun pl =>
      ¬ pyEnds pl.1 (S ".__key__") ∧ pl.2.kind ∈ valueKinds)).map (·.1)
  let children_of := fun (path : Str) =>
    let pre := if path = S "$" then S "$." else path ++ S "."
    value_paths.filter (fun p => pyStarts p pre)
  locations.foldl
    (fun problems pl =>
      let path := pl.1
      let loc := pl.2
      let s_abs := pySlice json_text (loc.start_character_number - 1) loc.end_character_number
      let start_idx := absFromLineCol line_starts loc.start_line_number loc.start_line_character_number
      let end_idx := absFromLineCol line_starts loc.end_line_number loc.end_line_character_number
      let s_line := pySlice json_text start_idx end_idx
      let problems :=
        if s_abs ≠ s_line then
          problems ++ [problemStr path "absolute vs line/col slice mismatch"]
        else problems
      let content := s_abs
      let problems :=
        if loc.kind = S "key" ∧ content ≠ jsonDumps loc.key ∧ pyStrip content ≠ jsonDumps loc.key then
          problems ++ [problemStr path "key content mismatch"]
        else problems
      if loc.kind = S "value" then
        match jsonLoads content with
        | .error _ => problems ++ [problemStr path "value is not standalone-parsable JSON"]
        | .ok parsed_val =>
          if parsed_val matches JVal.null then problems
          else
            let child_paths := children_of path
            let is_container := loc.kind ∈ [S "object", S "list"]
            let problems :=
              if ¬ is_container ∧ child_paths ≠ [] then
                problems ++ [problemStr path "primitive value has children"]
              else problems
            if is_container then
              child_paths.foldl
                (fun problems cpath =>
                  match dfind? locations cpath with
                  | none => problems
                  | some child =>
                    if ¬ (loc.start_character_number ≤ child.start_character_number ∧
                          child.start_character_number ≤ child.end_character_number ∧
                          child.end_character_number ≤ loc.end_character_number) then
                      problems ++ [problemStr path "child span not within parent span"]
                    else problems)
                problems
            else problems
      else problems)
    []

/-! ### `tracked_json.py` -/

/-- `_get_full_location` from `helpers.py` (constructing the `LocationInfo`
goes through pydantic validation, so this can raise). -/
def getFullLocation (text : Str) : Except PyExc LocationInfo :=
  let lines := match splitNoKeep text with | [] => [[]] | ls => ls
  let last_line := lines.getLastD []
  mkLocationInfo [] (S "$") (S "key")
    1 1 1 text.length lines.length last_line.length

/-- The state of a `TrackedJson` view: the source text, the location map, the
stored decode error (the 0-based error position) if the map is the synthetic
single-entry error map, the current location and the current path. -/
structure TJ where
  json_text : Str
  locations : PathMap
  error : Option Nat
  location : LocationInfo
  path : Str

/-- The `self.error` computation of `TrackedJson.__init__` (with
`raise_on_error=False`, the value all nested constructions use): the wrapped
error's 0-based position when the map is exactly `{"$.__error__": loc}`. -/
def tjErrOf (locations : PathMap) : Option Nat :=
  match locations with
  | [(p, loc)] =>
    if p = S "$.__error__" then some (loc.start_character_number - 1) else none
  | _ => none

/-- `TrackedJson.__init__` for a top-level construction (no `_locations` /
`_location` / `_path` arguments): runs `create_location_mapping`, derives
`self.error`, and computes `self.locations.get("$", _get_full_location(...))`
— the fallback argument is evaluated eagerly (Python evaluates `dict.get`'s
default before the call), so its pydantic validation runs even when the root
path is present. -/
def tjInit (json_text : Str) (raise_on_error : Bool) : Except PyExc TJ := do
  let locations ← createLocationMapping json_text raise_on_error
  let error := if ¬ raise_on_error then tjErrOf locations else none
  let fallback ← getFullLocation json_text
  let location := (dfind? locations (S "$")).getD fallback
  .ok ⟨json_text, locations, error, location, S "$"⟩

/-- A reparented view (`TrackedJson(self.json_text, _locations=…,
_location=…, _path=…)`): `_locations` is nonempty, so no re-parse;
`_location` is truthy, so the eager fallback of line 219 is skipped by the
short-circuiting `or`; `raise_on_error` defaults to `False`, so `self.error`
is re-derived from the shared map. -/
def mkSubCtx (t : TJ) (loc : LocationInfo) (path : Str) : TJ :=
  ⟨t.json_text, t.locations, tjErrOf t.locations, loc, path⟩

/-- `TrackedJson._pointer_to_dot`. -/
def pointerToDot (ptr : Str) : Str :=
  if ptr = [] ∨ ptr = ['/'] then S "$"
  else S "$." ++ joinWith (S ".") ((splitOnCh '/' (ptr.dropWhile (· = '/'))).map unescapeTok)

/-- `TrackedJson._normalize_path`. -/
def normalizePath (t : TJ) (path : Str) : Str :=
  if path = [] then t.path
  else if pyStarts path (S "/") then pointerToDot path
  else if pyStarts path (S "$") then path
  else if t.path = S "$" then S "$." ++ path
  else t.path ++ S "." ++ path

/-- `TrackedJson._direct_child_locs`: value locations whose last parent
compares equal (via `LocationInfo.__eq__`) to the current location, keyed by
their `key`. -/
def directChildLocs (t : TJ) : List (Str × LocationInfo) :=
  t.locations.foldl
    (fun out pl =>
      if pyEnds pl.1 (S ".__key__") then out
      else
        match pl.2.parents.getLast? with
        | some par => if locEq par t.location then dinsert out pl.2.key pl.2 else out
        | none => out)
    []

/-- A key passed to `__getitem__` / `get` / `__contains__`: `str | int`. -/
inductive PyKey where
  | str (s : Str)
  | int (i : Int)

/-- Python `str(key)`. -/
def pyKeyStr : PyKey → Str
  | .str s => s
  | .int i => intRepr i

/-- What `__getitem__` returns: a reparented `TrackedJson`, or (through the
`kind == "string"` branch, which indexes the parsed Python value) a plain
value. -/
inductive GetRes where
  | ctx (t : TJ)
  | val (v : JVal)

/-- `TrackedJson.start` / `TrackedJson.end` (0-based span bounds). -/
def tjStart (t : TJ) : Nat := t.location.start_character_number - 1

def tjEnd (t : TJ) : Nat := t.location.end_character_number - 1

/-- `TrackedJson.to_string`: the raw slice of the current span. -/
def tjToString (t : TJ) : Str := pySlice t.json_text (tjStart t) (tjEnd t)

/-- `TrackedJson.to_value`: raise the stored error, else `json.loads` the
slice. -/
def tjToValue (t : TJ) : Except PyExc JVal :=
  match t.error with
  | some p => .error (.decodeError p)
  | none =>
    match jsonLoads (tjToString t) with
    | .ok v => .ok v
    | .error e => .error (.decodeError e)

/-- Python subscription `v[key]` on a decoded JSON value: strings index by
`int` (negative wraps, out of range `IndexError`, `str` key `TypeError`),
dicts by `str` key (`KeyError` when absent, and for an `int` key too, since
decoded JSON objects only have `str` keys), lists by `int`; anything else is
a `TypeError`. -/
def pySubscript (v : JVal) (k : PyKey) : Except PyExc JVal :=
  match v with
  | .str s =>
    match k with
    | .int i =>
      match pyListIdx? s.length i with
      | some idx => .ok (.str [s.getD idx ' '])
      | none => .error .indexError
    | .str _ => .error .typeError
  | .obj mems =>
    match k with
    | .str kk =>
      match lookupLast mems kk with
      | some w => .ok w
      | none => .error (.keyError kk)
    | .int i => .error (.keyError (intRepr i))
  | .arr xs =>
    match k with
    | .int i =>
      match pyListIdx? xs.length i with
      | some idx =>
        match xs.get? idx with
        | some w => .ok w
        | none => .error .indexError
      | none => .error .indexError
    | .str _ => .error .typeError
  | _ => .error .typeError

/-- `TrackedJson.__getitem__`: absolute (`$`/`/`) lookups through the map;
string-kind contexts delegate to Python subscription of the parsed value;
otherwise direct children only, raising `KeyError` when absent. -/
def tjGetItem (t : TJ) (key : PyKey) : Except PyExc GetRes :=
  let name := pyKeyStr key
  if pyStarts name (S "$") ∨ pyStarts name (S "/") then
    let abs := normalizePath t name
    match dfind? t.locations abs with
    | none => .error (.keyError abs)
    | some loc => .ok (.ctx (mkSubCtx t loc abs))
  else if t.location.kind = S "string" then
    match tjToValue t with
    | .error e => .error e
    | .ok v => (pySubscript v key).map .val
  else
    match dfind? (directChildLocs t) name with
    | none => .error (.keyError name)
    | some child =>
      let cpath := if t.path = S "$" then S "$." ++ name else t.path ++ S "." ++ name
      .ok (.ctx (mkSubCtx t child cpath))

/-- `TrackedJson.get(key, default)`: `try self[key] except KeyError: return
default` — only a `KeyError` is caught; `none` models returning the default. -/
def tjGet (t : TJ) (key : PyKey) : Except PyExc (Option GetRes) :=
  match tjGetItem t key with
  | .error (.keyError _) => .ok none
  | .error e => .error e
  | .ok r => .ok (some r)

/-- `TrackedJson.__contains__`: the same dual resolution, as a total Boolean
(every operation it performs is non-raising). -/
def tjContains (t : TJ) (key : PyKey) : Bool :=
  let name := pyKeyStr key
  if pyStarts name (S "$") ∨ pyStarts name (S "/") then
    (dfind? t.locations (normalizePath t name)).isSome
  else
    (dfind? (directChildLocs t) name).isSome

/-! ### Statement-level definitions -/

/-- The absolute-offset slice of a location, exactly as `self_test_locations`
computes it: `json_text[loc.start_character_number - 1 : loc.end_character_number]`. -/
def sliceAbs (text : Str) (loc : LocationInfo) : Str :=
  pySlice text (loc.start_character_number - 1) loc.end_character_number

/-- The line/column-derived slice of a location, exactly as
`self_test_locations` computes it: both endpoints converted to absolute
indices through the text's line-start table. -/
def sliceLC (text : Str) (loc : LocationInfo) : Str :=
  pySlice text
    (absFromLineCol (lineStartsOf text) loc.start_line_number loc.start_line_character_number)
    (absFromLineCol (lineStartsOf text) loc.end_line_number loc.end_line_character_number)

/-- `sub` is the value of the document `v` at the pointer whose unescaped
segments are `segs` (array steps use the decimal index). -/
inductive NodeSegs : JVal → List Str → JVal → Prop where
  | nil (v : JVal) : NodeSegs v [] v
  | objStep {mems : List (Str × JVal)} {k : Str} {w sub : JVal} {segs : List Str} :
      (k, w) ∈ mems → NodeSegs w segs sub → NodeSegs (.obj mems) (k :: segs) sub
  | arrStep {xs : List JVal} {i : Nat} {w sub : JVal} {segs : List Str} :
      xs.get? i = some w → NodeSegs w segs sub → NodeSegs (.arr xs) (toDec i :: segs) sub

/-- The exception of a builder result, `none` on success. -/
def excOfMap : Except PyExc PathMap → Option PyExc
  | .error e => some e
  | .ok _ => none

/-- Well-ordered spans of one source-map entry. -/
def entryOrdered (e : SMEntry) : Prop :=
  e.vs ≤ e.ve ∧ (∀ a b, e.keySpan = some (a, b) → a ≤ b)

/-- Entry-completeness of a subtree parse rooted at pointer `base`. -/
def CoversP (base : List Str) (v : JVal) (es : List SMEntry) : Prop :=
  (∀ q sub, NodeSegs v q sub → ∃ e ∈ es, e.segs = base ++ q) ∧
  (∀ q mems k w, NodeSegs v q (.obj mems) → (k, w) ∈ mems →
     ∃ e ∈ es, e.segs = base ++ q ++ [k] ∧ e.keySpan.isSome = true)

/-- Entry-completeness for the parsed members of an object at `segs`. -/
def MemSpec (segs : List Str) (es : List SMEntry) (ms : List (Str × JVal)) : Prop :=
  ∀ k w, (k, w) ∈ ms →
    (∃ e ∈ es, e.segs = segs ++ [k] ∧ e.keySpan.isSome = true) ∧
    (∀ q sub, NodeSegs w q sub → ∃ e ∈ es, e.segs = segs ++ [k] ++ q) ∧
    (∀ q mems' k' w', NodeSegs w q (.obj mems') → (k', w') ∈ mems' →
       ∃ e ∈ es, e.segs = segs ++ [k] ++ q ++ [k'] ∧ e.keySpan.isSome = true)

/-- Entry-completeness for the parsed elements of an array at `segs` from
index `idx`. -/
def ElemSpec (segs : List Str) (idx : Nat) (es : List SMEntry) (xs : List JVal) : Prop :=
  ∀ i w, xs.get? i = some w →
    (∀ q sub, NodeSegs w q sub → ∃ e ∈ es, e.segs = segs ++ [toDec (idx + i)] ++ q) ∧
    (∀ q mems' k' w', NodeSegs w q (.obj mems') → (k', w') ∈ mems' →
       ∃ e ∈ es, e.segs = segs ++ [toDec (idx + i)] ++ q ++ [k'] ∧ e.keySpan.isSome = true)

/-- The full per-mode postcondition of `parseCore`. -/
def coreSpec (mode : PMode) (pos' : Nat) (res : PRes) (es : List SMEntry) : Prop :=
  match mode, res with
  | .value segs kp, .val v =>
    (∃ vs rest, es = ⟨segs, vs, pos', kp⟩ :: rest) ∧ CoversP segs v es
  | .members segs, .mems ms => MemSpec segs es ms
  | .elems segs idx, .elems xs => ElemSpec segs idx es xs
  | _, _ => False

/-- The caller-supplied key span of a mode (only `value` mode carries one). -/
def kpOf : PMode → Option (Nat × Nat)
  | .value _ kp => kp
  | _ => none

/-- The canonical dot path of a node, from its unescaped pointer segments:
the source-map pointer converted by `pointer_to_path`. -/
def dotPathOfSegs (segs : List Str) : Str := pointerToPath (ptrStrOfSegs segs)

/-- A location whose six position fields were derived from a 0-based span
`[a, b)` of `text` the way the first pass derives them: absolute character
numbers are the offsets plus one, line/column numbers come from the
line-start table. -/
def offsetDerived (text : Str) (loc : LocationInfo) : Prop :=
  ∃ a b, a ≤ b ∧
    loc.start_character_number = a + 1 ∧
    loc.start_line_number = (lineColOfOffset text a).1 + 1 ∧
    loc.start_line_character_number = (lineColOfOffset text a).2 + 1 ∧
    loc.end_character_number = b + 1 ∧
    loc.end_line_number = (lineColOfOffset text b).1 + 1 ∧
    loc.end_line_character_number = (lineColOfOffset text b).2 + 1

/-- The exception of a `TrackedJson` construction, `none` on success. -/
def excOfTJ : Except PyExc TJ → Option PyExc
  | .error e => some e
  | .ok _ => none

/-! Concrete instances -/

def dummyLoc : LocationInfo := .mk [] [] [] 1 1 1 1 1 1

def dummyTJ : TJ := ⟨[], [], none, dummyLoc, S "$"⟩

def c1text : Str := S "\x7b\"a\":1\x7d"

def c1map : PathMap := (createLocationMapping c1text false).toOption.getD []

def c1loc : LocationInfo := (dfind? c1map (S "$.a")).getD dummyLoc

def c2text : Str := S "\x7b\"a\":1\x7d"

def c2loc0 : LocationInfo := .mk [] (S "$") (S "object") 1 1 1 2 1 3

def c2loc1 : LocationInfo := .mk [] (S "a") (S "number") 6 1 6 7 1 8

def c2locs : PathMap := [(S "$", c2loc0), (S "$.a", c2loc1)]

def c4text : Str := S "\x7b\"a\":[1,2]\x7d"

def c4de : JVal × List SMEntry := (calculate c4text).toOption.getD (.null, [])

def c4map : PathMap := (createLocationMapping c4text false).toOption.getD []

def c5text : Str := S "\x7b\"x\": 1, \"x.__key__.y\": 2\x7d"

def c5map : PathMap := (createLocationMapping c5text false).toOption.getD []

def c5loc : LocationInfo := (dfind? c5map (S "$.x.__key__.y")).getD dummyLoc

def adaText : Str :=
  S "\x7b\"user\":\x7b\"name\":\"Ada Lovelace\",\"age\":36,\"languages\":[\"English\",\"French\"]\x7d\x7d"

def adaMap : PathMap := (createLocationMapping adaText false).toOption.getD []

def adaLoc : LocationInfo := (dfind? adaMap (S "$.user.name")).getD dummyLoc

def adaTJ : TJ := (tjInit adaText false).toOption.getD dummyTJ

def c6text : Str := S "\x7b\"items\":[\x7b\"tags\":[\"a\",\"b\"]\x7d]\x7d"

def c6tj : TJ := (tjInit c6text false).toOption.getD dummyTJ

def c6sub : TJ :=
  match tjGetItem c6tj (.str (S "$.items.0.tags.1")) with
  | .ok (.ctx t) => t
  | _ => dummyTJ

def c8tj : TJ := (tjInit (S "\"abc\"") false).toOption.getD dummyTJ

def c10text : Str := S "\x7b\x7d\n\n"

def c10map : PathMap := (createLocationMapping c10text true).toOption.getD []

/-! ## Lemmas and claim theorems -/

/-! ### Dictionary lemmas -/

theorem dfind?_nil (p : Str) : dfind? [] p = none := rfl

theorem dfind?_cons (a : Str × LocationInfo) (m : PathMap) (p : Str) :
    dfind? (a :: m) p = if a.1 = p then some a.2 else dfind? m p := by
  simp only [dfind?, List.find?_cons]
  by_cases h : a.1 = p <;> simp [h]

theorem dfind?_dinsert (m : PathMap) (k : Str) (v : LocationInfo) (p : Str) :
    dfind? (dinsert m k v) p = if p = k then some v else dfind? m p := by
  induction m with
  | nil =>
    by_cases h : p = k
    · subst h; simp [dinsert, dfind?_cons]
    · have : ¬ (k = p) := fun hk => h hk.symm
      simp [dinsert, dfind?_cons, this, h]
  | cons a rest ih =>
    simp only [dinsert]
    by_cases hak : a.1 = k
    · by_cases hpk : p = k
      · subst hpk
        simp [dfind?_cons, hak]
      · have hkp : ¬ (k = p) := fun h => hpk h.symm
        have hap : ¬ (a.1 = p) := by rw [hak]; exact hkp
        simp [hak, dfind?_cons, hpk, hkp, hap]
    · simp only [hak, if_false, dfind?_cons, ih]
      by_cases hap : a.1 = p
      · have hpk : ¬ (p = k) := by rw [← hap]; exact fun h => hak h
        simp [hap, hpk]
      · simp [hap]

/-! ### `withParents` projections -/

theorem withParents_parents (l : LocationInfo) (ps : List LocationInfo) :
    (l.withParents ps).parents = ps := by
  cases l; rfl

theorem withParents_scn (l : LocationInfo) (ps : List LocationInfo) :
    (l.withParents ps).start_character_number = l.start_character_number := by
  cases l; rfl

theorem withParents_sln (l : LocationInfo) (ps : List LocationInfo) :
    (l.withParents ps).start_line_number = l.start_line_number := by
  cases l; rfl

theorem withParents_slcn (l : LocationInfo) (ps : List LocationInfo) :
    (l.withParents ps).start_line_character_number = l.start_line_character_number := by
  cases l; rfl

theorem withParents_ecn (l : LocationInfo) (ps : List LocationInfo) :
    (l.withParents ps).end_character_number = l.end_character_number := by
  cases l; rfl

theorem withParents_eln (l : LocationInfo) (ps : List LocationInfo) :
    (l.withParents ps).end_line_number = l.end_line_number := by
  cases l; rfl

theorem withParents_elcn (l : LocationInfo) (ps : List LocationInfo) :
    (l.withParents ps).end_line_character_number = l.end_line_character_number := by
  cases l; rfl

/-! ### `linkMap` lookup -/

theorem dfind?_map_none (g : Str → LocationInfo → LocationInfo) (m : PathMap) (p : Str)
    (h : dfind? m p = none) :
    dfind? (m.map (fun pl => (pl.1, g pl.1 pl.2))) p = none := by
  induction m with
  | nil => rfl
  | cons a rest ih =>
    rw [dfind?_cons] at h
    by_cases hap : a.1 = p
    · simp [hap] at h
    · simp only [hap, if_false] at h
      simpa [List.map_cons, dfind?_cons, hap] using ih h

theorem dfind?_map_some (g : Str → LocationInfo → LocationInfo) (m : PathMap) (p : Str)
    (v : LocationInfo) (h : dfind? m p = some v) :
    dfind? (m.map (fun pl => (pl.1, g pl.1 pl.2))) p = some (g p v) := by
  induction m with
  | nil => simp [dfind?_nil] at h
  | cons a rest ih =>
    rw [dfind?_cons] at h
    by_cases hap : a.1 = p
    · simp only [hap, if_true] at h
      cases h
      simp [List.map_cons, dfind?_cons, hap]
    · simp only [hap, if_false] at h
      simpa [List.map_cons, dfind?_cons, hap] using ih h

theorem dfind?_linkMap (m : PathMap) (p : Str) :
    dfind? (linkMap m) p =
      (dfind? m p).map (fun loc => loc.withParents (linkFold m (ancestorsOf p))) := by
  cases h : dfind? m p with
  | none =>
    simpa [linkMap, linkedAt] using
      dfind?_map_none (fun q l => (linkedAt m q).getD l) m p h
  | some v =>
    have := dfind?_map_some (fun q l => (linkedAt m q).getD l) m p v h
    simp only [linkMap] at *
    rw [this]
    simp [linkedAt, h]

/-! ### Split/join lemmas -/

theorem splitOnCh_ne_nil (sep : Char) (cs : Str) : splitOnCh sep cs ≠ [] := by
  cases cs with
  | nil => simp [splitOnCh]
  | cons c rest =>
    simp only [splitOnCh]
    by_cases h : c = sep
    · simp [h]
    · simp only [h, if_false]
      cases hs : splitOnCh sep rest <;> simp

theorem splitOnCh_no_sep (sep : Char) (cs : Str) :
    ∀ q ∈ splitOnCh sep cs, sep ∉ q := by
  induction cs with
  | nil => intro q hq; simp [splitOnCh] at hq; simp [hq]
  | cons c rest ih =>
    intro q hq
    simp only [splitOnCh] at hq
    by_cases h : c = sep
    · simp only [h, if_true] at hq
      rcases List.mem_cons.mp hq with h1 | h1
      · simp [h1]
      · exact ih q h1
    · simp only [h, if_false] at hq
      cases hs : splitOnCh sep rest with
      | nil => exact absurd hs (splitOnCh_ne_nil sep rest)
      | cons l ls =>
        rw [hs] at hq
        rcases List.mem_cons.mp hq with h1 | h1
        · subst h1
          intro hmem
          rcases List.mem_cons.mp hmem with h2 | h2
          · exact h h2.symm
          · exact ih l (by rw [hs]; exact List.mem_cons_self l ls) h2
        · exact ih q (by rw [hs]; exact List.mem_cons_of_mem l h1)

theorem splitOnCh_single (sep : Char) (p : Str) (h : sep ∉ p) :
    splitOnCh sep p = [p] := by
  induction p with
  | nil => rfl
  | cons c rest ih =>
    have hc : ¬ (c = sep) := fun hcs => h (by rw [hcs]; exact List.mem_cons_self _ _)
    have hr : sep ∉ rest := fun hm => h (List.mem_cons_of_mem c hm)
    simp [splitOnCh, hc, ih hr]

theorem splitOnCh_sep_append (sep : Char) (p t : Str) (h : sep ∉ p) :
    splitOnCh sep (p ++ sep :: t) = p :: splitOnCh sep t := by
  induction p with
  | nil => simp [splitOnCh]
  | cons c rest ih =>
    have hc : ¬ (c = sep) := fun hcs => h (by rw [hcs]; exact List.mem_cons_self _ _)
    have hr : sep ∉ rest := fun hm => h (List.mem_cons_of_mem c hm)
    simp only [List.cons_append, splitOnCh, hc, if_false, ih hr]
    cases hs : splitOnCh sep (rest ++ sep :: t) with
    | nil => exact absurd hs (splitOnCh_ne_nil sep _)
    | cons l ls =>
      rw [ih hr] at hs
      cases hs
      rfl

theorem splitOnCh_joinWith (sep : Char) (ps : List Str) (hne : ps ≠ [])
    (h : ∀ q ∈ ps, sep ∉ q) :
    splitOnCh sep (joinWith [sep] ps) = ps := by
  induction ps with
  | nil => exact absurd rfl hne
  | cons p rest ih =>
    cases rest with
    | nil => exact splitOnCh_single sep p (h p (List.mem_cons_self _ _))
    | cons q rs =>
      have hp : sep ∉ p := h p (List.mem_cons_self _ _)
      have hrest : ∀ x ∈ q :: rs, sep ∉ x := fun x hx => h x (List.mem_cons_of_mem p hx)
      have : joinWith [sep] (p :: q :: rs) = p ++ sep :: joinWith [sep] (q :: rs) := by
        simp [joinWith]
      rw [this, splitOnCh_sep_append sep p _ hp, ih (by simp) hrest]

theorem joinWith_mem_sep (sep : Char) (p q : Str) (rs : List Str) :
    sep ∈ joinWith [sep] (p :: q :: rs) := by
  have : joinWith [sep] (p :: q :: rs) = p ++ sep :: joinWith [sep] (q :: rs) := by
    simp [joinWith]
  rw [this]
  exact List.mem_append_right p (List.mem_cons_self _ _)

/-! ### Line-table consistency -/

theorem lineStartsOf_ne_nil (cs : Str) : lineStartsOf cs ≠ [] := by
  unfold lineStartsOf
  cases h : splitKeep cs with
  | nil => simp
  | cons l ls => simp [startsFrom]

theorem lineStartsOf_head (cs : Str) : (lineStartsOf cs).headD 1 = 0 := by
  unfold lineStartsOf
  cases h : splitKeep cs with
  | nil => rfl
  | cons l ls => simp [startsFrom]

theorem findLineIdx_lt (ls : List Nat) (off : Nat) (h : ls ≠ []) :
    findLineIdx ls off < ls.length := by
  induction ls with
  | nil => exact absurd rfl h
  | cons a rest ih =>
    cases rest with
    | nil => simp [findLineIdx]
    | cons b rs =>
      simp only [findLineIdx]
      by_cases hb : off < b
      · simp [hb]
      · simp only [hb, if_false, List.length_cons]
        have := ih (by simp)
        simp only [List.length_cons] at this
        omega

theorem findLineIdx_le (ls : List Nat) (off : Nat) (h : ls.headD 0 ≤ off) :
    ls.getD (findLineIdx ls off) 0 ≤ off := by
  induction ls with
  | nil => simp [findLineIdx]
  | cons a rest ih =>
    cases rest with
    | nil => simpa [findLineIdx] using h
    | cons b rs =>
      simp only [findLineIdx]
      by_cases hb : off < b
      · simpa [hb] using h
      · simp only [hb, if_false]
        have hble : b ≤ off := Nat.le_of_not_lt hb
        have hrec := ih (by simpa using hble)
        rw [Nat.add_comm 1 (findLineIdx (b :: rs) off), List.getD_cons_succ]
        exact hrec

theorem lineColConsistent (cs : Str) (off : Nat) :
    absFromLineCol (lineStartsOf cs) ((lineColOfOffset cs off).1 + 1)
      ((lineColOfOffset cs off).2 + 1) = off := by
  unfold lineColOfOffset absFromLineCol
  have hne : lineStartsOf cs ≠ [] := lineStartsOf_ne_nil cs
  have hlt : findLineIdx (lineStartsOf cs) off < (lineStartsOf cs).length :=
    findLineIdx_lt _ _ hne
  have hle : (lineStartsOf cs).getD (findLineIdx (lineStartsOf cs) off) 0 ≤ off := by
    apply findLineIdx_le
    have := lineStartsOf_head cs
    cases h : lineStartsOf cs with
    | nil => exact absurd h hne
    | cons a rest =>
      rw [h] at this
      simp only [List.headD_cons] at this
      simp [this]
  simp only
  have hidx : max 1 (min (findLineIdx (lineStartsOf cs) off + 1) (lineStartsOf cs).length) - 1 =
      findLineIdx (lineStartsOf cs) off := by omega
  rw [hidx]
  omega

/-! ### Slice composition -/

theorem pySlice_eq_drop_take (cs : Str) (a b : Nat) :
    pySlice cs a b = (cs.drop a).take (b - a) := by
  simp [pySlice, List.drop_take]

theorem pySlice_append (cs : Str) (a b c : Nat) (hab : a ≤ b) (hbc : b ≤ c) :
    pySlice cs a c = pySlice cs a b ++ pySlice cs b c := by
  rw [pySlice_eq_drop_take, pySlice_eq_drop_take, pySlice_eq_drop_take]
  have hdrop : cs.drop b = (cs.drop a).drop (b - a) := by
    rw [List.drop_drop]
    congr 1
    omega
  rw [hdrop]
  have harith : c - a = (b - a) + (c - b) := by omega
  rw [harith, List.take_add]

/-! ### Ancestor-chain linkage -/

theorem ancestorsOf_join (parts : List Str) (j : Nat)
    (hnd : ∀ q ∈ parts, '.' ∉ q) (hj : j + 1 ≤ parts.length) :
    ancestorsOf (joinWith (S ".") (parts.take (j + 1))) =
      (List.range' 1 j).map (fun i => joinWith (S ".") (parts.take i)) := by
  have hS : S "." = ['.'] := rfl
  have hndt : ∀ q ∈ parts.take (j + 1), '.' ∉ q :=
    fun q hq => hnd q (List.mem_of_mem_take hq)
  have hlen : (parts.take (j + 1)).length = j + 1 := by
    rw [List.length_take]; omega
  cases j with
  | zero =>
    obtain ⟨p0, rest, rfl⟩ : ∃ p0 rest, parts = p0 :: rest := by
      cases parts with
      | nil => simp at hj
      | cons a b => exact ⟨a, b, rfl⟩
    have htake : (p0 :: rest).take (0 + 1) = [p0] := by simp
    rw [htake]
    have hjoin : joinWith (S ".") [p0] = p0 := rfl
    rw [hjoin]
    unfold ancestorsOf
    by_cases hroot : p0 = S "$"
    · simp [hroot]
    · have hp0 : '.' ∉ p0 := hnd p0 (List.mem_cons_self _ _)
      simp [hroot, splitOnCh_single '.' p0 hp0]
  | succ j' =>
    have h2 : 2 ≤ (parts.take (j' + 1 + 1)).length := by omega
    obtain ⟨p0, rest0, hp⟩ : ∃ p0 rest0, parts.take (j' + 1 + 1) = p0 :: rest0 := by
      cases hp : parts.take (j' + 1 + 1) with
      | nil => rw [hp] at h2; simp at h2
      | cons a b => exact ⟨a, b, rfl⟩
    obtain ⟨p1, rest1, hp1⟩ : ∃ p1 rest1, rest0 = p1 :: rest1 := by
      cases hp1 : rest0 with
      | nil => rw [hp, hp1] at h2; simp at h2
      | cons a b => exact ⟨a, b, rfl⟩
    have hmem : '.' ∈ joinWith (S ".") (parts.take (j' + 1 + 1)) := by
      rw [hp, hp1, hS]
      exact joinWith_mem_sep '.' p0 p1 rest1
    have hroot : ¬ (joinWith (S ".") (parts.take (j' + 1 + 1)) = S "$") := by
      intro h
      rw [h] at hmem
      simp [S] at hmem
    unfold ancestorsOf
    simp only [hroot, if_false]
    rw [hS, splitOnCh_joinWith '.' _ (by rw [hp]; simp) hndt, hlen]
    simp only [Nat.add_sub_cancel]
    apply List.map_congr_left
    intro i hi
    have hij : i ≤ j' + 1 := by
      have := List.mem_range'_1.mp hi
      omega
    rw [List.take_take]
    have hmin : min i (j' + 1 + 1) = i := by omega
    rw [hmin]

theorem linkFold_prefix (m : PathMap) (parts : List Str)
    (hnd : ∀ q ∈ parts, '.' ∉ q) :
    ∀ j, j ≤ parts.length →
      linkFold m ((List.range' 1 j).map (fun i => joinWith (S ".") (parts.take i))) =
        ((List.range' 1 j).map (fun i => joinWith (S ".") (parts.take i))).filterMap
          (fun a => (dfind? m a).map (fun l => l.withParents (linkFold m (ancestorsOf a)))) := by
  intro j
  induction j with
  | zero => intro _; rfl
  | succ j ih =>
    intro hj
    have hjle : j ≤ parts.length := by omega
    have hconcat : List.range' 1 (j + 1) = List.range' 1 j ++ [j + 1] := by
      rw [List.range'_concat]
      simp [Nat.one_mul, Nat.add_comm]
    rw [hconcat, List.map_append, List.map_singleton]
    set A := (List.range' 1 j).map (fun i => joinWith (S ".") (parts.take i)) with hA
    set aj := joinWith (S ".") (parts.take (j + 1)) with haj
    have hanc : ancestorsOf aj = A := ancestorsOf_join parts j hnd hj
    have hfold : linkFold m (A ++ [aj]) =
        match dfind? m aj with
        | none => linkFold m A
        | some loc => linkFold m A ++ [loc.withParents (linkFold m A)] := by
      simp only [linkFold, List.foldl_append, List.foldl_cons, List.foldl_nil]
    rw [hfold, List.filterMap_append]
    cases hd : dfind? m aj with
    | none =>
      simp only [List.filterMap_cons, hd, Option.map_none', List.filterMap_nil, List.append_nil]
      exact ih hjle
    | some loc =>
      simp only [List.filterMap_cons, hd, Option.map_some', List.filterMap_nil]
      rw [ih hjle, hanc]
      rw [← ih hjle]

theorem linkMap_parents (m : PathMap) (p : Str) (loc : LocationInfo)
    (h : dfind? (linkMap m) p = some loc) :
    loc.parents = (ancestorsOf p).filterMap (dfind? (linkMap m)) := by
  rw [dfind?_linkMap] at h
  cases hd : dfind? m p with
  | none => rw [hd] at h; simp at h
  | some v =>
    rw [hd] at h
    simp only [Option.map_some'] at h
    cases h
    rw [withParents_parents]
    have hcong : (ancestorsOf p).filterMap (dfind? (linkMap m)) =
        (ancestorsOf p).filterMap
          (fun a => (dfind? m a).map (fun l => l.withParents (linkFold m (ancestorsOf a)))) := by
      apply List.filterMap_congr
      intro a _
      exact dfind?_linkMap m a
    rw [hcong]
    by_cases hroot : p = S "$"
    · subst hroot
      rfl
    · have hform : ancestorsOf p = (List.range' 1 ((splitOnCh '.' p).length - 1)).map
          (fun i => joinWith (S ".") ((splitOnCh '.' p).take i)) := by
        unfold ancestorsOf
        simp [hroot]
      rw [hform]
      exact linkFold_prefix m (splitOnCh '.' p) (splitOnCh_no_sep '.' p)
        ((splitOnCh '.' p).length - 1) (by omega)

/-! ### Parser monotonicity -/

theorem skipWs_ge (pos : Nat) (cs : Str) : pos ≤ (skipWs pos cs).1 := by
  induction cs generalizing pos with
  | nil => simp [skipWs]
  | cons c rest ih =>
    simp only [skipWs]
    by_cases h : jsonWs c = true
    · simp only [h, if_true]
      exact Nat.le_trans (Nat.le_succ pos) (ih (pos + 1))
    · simp [h]

theorem strBody_ge (pos : Nat) (cs : Str) (s : Str) (p' : Nat) (r : Str)
    (h : strBody pos cs = .ok (s, p', r)) : pos ≤ p' := by
  induction pos, cs using strBody.induct generalizing s p' r with
  | case1 pos => simp [strBody] at h
  | case2 pos rest =>
    simp only [strBody] at h
    cases h
    omega
  | case3 pos => simp [strBody] at h
  | case4 pos c1 c2 c3 c4 rest' a b c d h4 h3 h2 h1 ih =>
    simp only [strBody, h1, h2, h3, h4] at h
    cases hrec : strBody (pos + 6) rest' with
    | error e => rw [hrec] at h; simp [Except.map] at h
    | ok t =>
      obtain ⟨t1, t2, t3⟩ := t
      rw [hrec] at h
      simp only [Except.map, Except.ok.injEq, Prod.mk.injEq] at h
      obtain ⟨-, hp2, -⟩ := h
      subst hp2
      have := ih t1 t2 t3 hrec
      omega
  | case5 pos c1 c2 c3 c4 rest' hnone =>
    cases hv1 : hexVal? c1 with
    | none => simp [strBody, hv1] at h
    | some a =>
      cases hv2 : hexVal? c2 with
      | none => simp [strBody, hv1, hv2] at h
      | some b =>
        cases hv3 : hexVal? c3 with
        | none => simp [strBody, hv1, hv2, hv3] at h
        | some c =>
          cases hv4 : hexVal? c4 with
          | none => simp [strBody, hv1, hv2, hv3, hv4] at h
          | some d => exact (hnone a b c d hv1 hv2 hv3 hv4).elim
  | case6 pos e rest' hne d hesc ih =>
    by_cases he : e = 'u'
    · rw [he] at hesc
      simp [escChar?] at hesc
    · simp only [strBody] at h
      rw [hesc] at h
      cases hrec : strBody (pos + 2) rest' with
      | error e2 => rw [hrec] at h; simp [Except.map] at h
      | ok t =>
        obtain ⟨t1, t2, t3⟩ := t
        rw [hrec] at h
        simp only [Except.map, Except.ok.injEq, Prod.mk.injEq] at h
        obtain ⟨-, hp2, -⟩ := h
        subst hp2
        have := ih t1 t2 t3 hrec
        omega
  | case7 pos e rest' hne hesc =>
    simp only [strBody] at h
    rw [hesc] at h
    simp at h
  | case8 pos c rest hq hb hc =>
    simp only [strBody] at h
    simp [hc] at h
  | case9 pos c rest hq hb hc ih =>
    simp only [strBody] at h
    simp only [hc, if_false] at h
    cases hrec : strBody (pos + 1) rest with
    | error e2 => rw [hrec] at h; simp [Except.map] at h
    | ok t =>
      obtain ⟨t1, t2, t3⟩ := t
      rw [hrec] at h
      simp only [Except.map, Except.ok.injEq, Prod.mk.injEq] at h
      obtain ⟨-, hp2, -⟩ := h
      subst hp2
      have := ih t1 t2 t3 hrec
      omega

theorem parseString_ge (pos : Nat) (cs : Str) (s : Str) (p' : Nat) (r : Str)
    (h : parseString pos cs = .ok (s, p', r)) : pos < p' := by
  unfold parseString at h
  split at h
  · have := strBody_ge _ _ _ _ _ h
    omega
  · simp at h

theorem digitRun_ge (pos : Nat) (cs : Str) : pos ≤ (digitRun pos cs).2.1 := by
  induction cs generalizing pos with
  | nil => simp [digitRun]
  | cons c rest ih =>
    simp only [digitRun]
    by_cases hd : c.isDigit = true
    · simp only [hd, if_true]
      have h2 := ih (pos + 1)
      cases hrun : digitRun (pos + 1) rest with
      | mk ds pr =>
        obtain ⟨p2, r2⟩ := pr
        rw [hrun] at h2
        simp only [hrun]
        simp only at h2
        omega
    · simp [hd]

theorem intPart_ge (pos : Nat) (cs : Str) (ip : Str) (p1 : Nat) (cs1 : Str)
    (h : intPart pos cs = some (ip, p1, cs1)) : pos ≤ p1 := by
  unfold intPart at h
  split at h
  rename_i x sgn p1x cs1x heq
  have hp1 : pos ≤ p1x := by
    split at heq
    · cases heq; omega
    · cases heq; omega
  split at h
  · cases h; omega
  · rename_i c0 tail0 hne0
    split at h
    · split at h
      rename_i trip ds p2x cs2x heq2
      cases h
      have hge := digitRun_ge p1x (c0 :: tail0)
      rw [heq2] at hge
      simp only at hge
      omega
    · simp at h
  · simp at h

theorem fracPart_ge (pos : Nat) (cs : Str) : pos ≤ (fracPart pos cs).2.1 := by
  unfold fracPart
  split
  · rename_i c rest
    by_cases hd : c.isDigit = true
    · simp only [hd, if_true]
      cases hrun : digitRun (pos + 2) rest with
      | mk ds pr =>
        obtain ⟨p2, r2⟩ := pr
        have hge := digitRun_ge (pos + 2) rest
        rw [hrun] at hge
        simp only at hge ⊢
        omega
    · simp [hd]
  · simp

theorem expSign_ge (pos : Nat) (rest : Str) : pos + 1 ≤ (expSign pos rest).2.1 := by
  unfold expSign
  split <;> simp

theorem expPart_ge (pos : Nat) (cs : Str) : pos ≤ (expPart pos cs).2.1 := by
  unfold expPart
  split
  · rename_i e rest
    by_cases he : e = 'e' ∨ e = 'E'
    · simp only [he, if_true]
      cases hm : expSign pos rest with
      | mk sgn pr =>
        obtain ⟨p1x, cs1x⟩ := pr
        have hp1 : pos + 1 ≤ p1x := by
          have := expSign_ge pos rest
          rw [hm] at this
          simpa using this
        simp only
        split
        · rename_i c tail
          by_cases hd : c.isDigit = true
          · simp only [hd, if_true]
            cases hrun : digitRun p1x (c :: tail) with
            | mk ds pr2 =>
              obtain ⟨p2, r2⟩ := pr2
              have hge := digitRun_ge p1x (c :: tail)
              rw [hrun] at hge
              simp only at hge ⊢
              omega
          · simp [hd]
        · simp
    · simp [he]
  · simp

theorem parseNumber_ge (pos : Nat) (cs : Str) (raw : Str) (p' : Nat) (r : Str)
    (h : parseNumber pos cs = .ok (raw, p', r)) : pos ≤ p' := by
  unfold parseNumber at h
  split at h
  · simp at h
  · rename_i ip p1x cs1x heq
    have h1 : pos ≤ p1x := intPart_ge pos cs ip p1x cs1x heq
    cases hfrac : fracPart p1x cs1x with
    | mk fp pr2 =>
      obtain ⟨p2, cs2⟩ := pr2
      have h2 := fracPart_ge p1x cs1x
      rw [hfrac] at h2
      simp only at h2
      rw [hfrac] at h
      simp only at h
      cases hexp : expPart p2 cs2 with
      | mk ep pr3 =>
        obtain ⟨p3, cs3⟩ := pr3
        have h3 := expPart_ge p2 cs2
        rw [hexp] at h3
        simp only at h3
        rw [hexp] at h
        simp only at h
        cases h
        omega

/-! ### Parser invariant -/

theorem parseCore_inv : ∀ (fuel : Nat) (mode : PMode) (pos : Nat) (cs : Str)
    (res : PRes) (pos' : Nat) (cs' : Str) (es : List SMEntry),
    (∀ a b, kpOf mode = some (a, b) → a ≤ b) →
    parseCore fuel mode pos cs = .ok (res, pos', cs', es) →
    pos ≤ pos' ∧ (∀ e ∈ es, entryOrdered e) ∧ coreSpec mode pos' res es := by
  intro fuel
  induction fuel with
  | zero => intro mode pos cs res pos' cs' es hkp h; simp [parseCore] at h
  | succ fuel ih =>
    intro mode pos cs res pos' cs' es hkp h
    cases mode with
    | value segs kp =>
      simp only [kpOf] at hkp
      simp only [parseCore] at h
      cases hskip : skipWs pos cs with
      | mk p1 cs1 =>
        have hp1 : pos ≤ p1 := by
          have := skipWs_ge pos cs
          rw [hskip] at this
          simpa using this
        rw [hskip] at h
        simp only at h
        split at h
        · -- cs1 = []
          simp at h
        · -- cs1 = '\x7b' :: rest
          rename_i rest
          cases hskip2 : skipWs (p1 + 1) rest with
          | mk p2 cs2 =>
            have hp2 : p1 + 1 ≤ p2 := by
              have := skipWs_ge (p1 + 1) rest
              rw [hskip2] at this
              simpa using this
            rw [hskip2] at h
            simp only at h
            split at h
            · -- cs2 = '\x7d' :: r : empty object
              cases h
              refine ⟨by omega, ?_, ?_⟩
              · intro e he
                simp only [List.mem_singleton] at he
                subst he
                exact ⟨by simp; try omega, by intro a b hab; simp at hab; exact hkp a b (by rw [hab])⟩
              · refine ⟨⟨p1, [], rfl⟩, ?_, ?_⟩
                · intro q sub hns
                  cases hns with
                  | nil => exact ⟨_, List.mem_singleton_self _, by simp⟩
                  | objStep hk _ => simp at hk
                · intro q mems k w hns hmem
                  cases hns with
                  | nil => simp at hmem
                  | objStep hk _ => simp at hk
            · -- nonempty object
              cases hrec : parseCore fuel (.members segs) p2 cs2 with
              | error e => rw [hrec] at h; simp at h
              | ok t =>
                obtain ⟨r4, p4, cs4, es4⟩ := t
                rw [hrec] at h
                cases r4 with
                | mems ms =>
                  simp only at h
                  cases h
                  obtain ⟨hm1, hm2, hm3⟩ := ih _ _ _ _ _ _ _ (by simp [kpOf]) hrec
                  simp only [coreSpec] at hm3
                  refine ⟨by omega, ?_, ?_⟩
                  · intro e he
                    rcases List.mem_cons.mp he with rfl | he4
                    · exact ⟨by simp; try omega, by intro a b hab; simp at hab; exact hkp a b (by rw [hab])⟩
                    · exact hm2 e he4
                  · refine ⟨⟨p1, es4, rfl⟩, ?_, ?_⟩
                    · intro q sub hns
                      cases hns with
                      | nil => exact ⟨_, List.mem_cons_self _ _, by simp⟩
                      | @objStep mems0 k0 w0 sub0 q0 hk hns' =>
                        obtain ⟨e, he, hseg⟩ := (hm3 k0 w0 hk).2.1 q0 sub hns'
                        exact ⟨e, List.mem_cons_of_mem _ he, by rw [hseg]; simp⟩
                    · intro q mems k w hns hmem
                      cases hns with
                      | nil =>
                        obtain ⟨e, he, hseg, hsome⟩ := (hm3 k w hmem).1
                        exact ⟨e, List.mem_cons_of_mem _ he, by rw [hseg]; simp, hsome⟩
                      | @objStep mems0 k0 w0 sub0 q0 hk hns' =>
                        obtain ⟨e, he, hseg, hsome⟩ := (hm3 k0 w0 hk).2.2 q0 mems k w hns' hmem
                        exact ⟨e, List.mem_cons_of_mem _ he, by rw [hseg]; simp, hsome⟩
                | val v => simp at h
                | elems xs => simp at h
        · -- cs1 = '[' :: rest
          rename_i rest
          cases hskip2 : skipWs (p1 + 1) rest with
          | mk p2 cs2 =>
            have hp2 : p1 + 1 ≤ p2 := by
              have := skipWs_ge (p1 + 1) rest
              rw [hskip2] at this
              simpa using this
            rw [hskip2] at h
            simp only at h
            split at h
            · -- cs2 = ']' :: r : empty array
              cases h
              refine ⟨by omega, ?_, ?_⟩
              · intro e he
                simp only [List.mem_singleton] at he
                subst he
                exact ⟨by simp; try omega, by intro a b hab; simp at hab; exact hkp a b (by rw [hab])⟩
              · refine ⟨⟨p1, [], rfl⟩, ?_, ?_⟩
                · intro q sub hns
                  cases hns with
                  | nil => exact ⟨_, List.mem_singleton_self _, by simp⟩
                  | arrStep hk _ => simp at hk
                · intro q mems k w hns hmem
                  cases hns with
                  | arrStep hk _ => simp at hk
            · -- nonempty array
              cases hrec : parseCore fuel (.elems segs 0) p2 cs2 with
              | error e => rw [hrec] at h; simp at h
              | ok t =>
                obtain ⟨r4, p4, cs4, es4⟩ := t
                rw [hrec] at h
                cases r4 with
                | elems xs =>
                  simp only at h
                  cases h
                  obtain ⟨hm1, hm2, hm3⟩ := ih _ _ _ _ _ _ _ (by simp [kpOf]) hrec
                  simp only [coreSpec] at hm3
                  refine ⟨by omega, ?_, ?_⟩
                  · intro e he
                    rcases List.mem_cons.mp he with rfl | he4
                    · exact ⟨by simp; try omega, by intro a b hab; simp at hab; exact hkp a b (by rw [hab])⟩
                    · exact hm2 e he4
                  · refine ⟨⟨p1, es4, rfl⟩, ?_, ?_⟩
                    · intro q sub hns
                      cases hns with
                      | nil => exact ⟨_, List.mem_cons_self _ _, by simp⟩
                      | @arrStep xs0 i0 w0 sub0 q0 hk hns' =>
                        obtain ⟨e, he, hseg⟩ := (hm3 i0 w0 hk).1 q0 sub hns'
                        refine ⟨e, List.mem_cons_of_mem _ he, ?_⟩
                        rw [hseg]
                        simp [Nat.zero_add]
                    · intro q mems k w hns hmem
                      cases hns with
                      | @arrStep xs0 i0 w0 sub0 q0 hk hns' =>
                        obtain ⟨e, he, hseg, hsome⟩ := (hm3 i0 w0 hk).2 q0 mems k w hns' hmem
                        refine ⟨e, List.mem_cons_of_mem _ he, ?_, hsome⟩
                        rw [hseg]
                        simp [Nat.zero_add]
                | val v => simp at h
                | mems ms => simp at h
        · -- cs1 = '"' :: _
          rename_i tl
          cases hps : parseString p1 ('"' :: tl) with
          | error e => rw [hps] at h; simp at h
          | ok t =>
            obtain ⟨s2, p2, r2⟩ := t
            rw [hps] at h
            simp only at h
            cases h
            have hlt : p1 < pos' := parseString_ge p1 ('"' :: tl) s2 pos' cs' hps
            refine ⟨by omega, ?_, ?_⟩
            · intro e he
              simp only [List.mem_singleton] at he
              subst he
              exact ⟨by simp; try omega, by intro a b hab; simp at hab; exact hkp a b (by rw [hab])⟩
            · refine ⟨⟨p1, [], rfl⟩, ?_, ?_⟩
              · intro q sub hns
                cases hns with
                | nil => exact ⟨_, List.mem_singleton_self _, by simp⟩
              · intro q mems k w hns hmem
                cases hns
        · -- true
          cases h
          refine ⟨by omega, ?_, ?_⟩
          · intro e he
            simp only [List.mem_singleton] at he
            subst he
            exact ⟨by simp; try omega, by intro a b hab; simp at hab; exact hkp a b (by rw [hab])⟩
          · refine ⟨⟨p1, [], rfl⟩, ?_, ?_⟩
            · intro q sub hns
              cases hns with
              | nil => exact ⟨_, List.mem_singleton_self _, by simp⟩
            · intro q mems k w hns hmem
              cases hns
        · -- false
          cases h
          refine ⟨by omega, ?_, ?_⟩
          · intro e he
            simp only [List.mem_singleton] at he
            subst he
            exact ⟨by simp; try omega, by intro a b hab; simp at hab; exact hkp a b (by rw [hab])⟩
          · refine ⟨⟨p1, [], rfl⟩, ?_, ?_⟩
            · intro q sub hns
              cases hns with
              | nil => exact ⟨_, List.mem_singleton_self _, by simp⟩
            · intro q mems k w hns hmem
              cases hns
        · -- null
          cases h
          refine ⟨by omega, ?_, ?_⟩
          · intro e he
            simp only [List.mem_singleton] at he
            subst he
            exact ⟨by simp; try omega, by intro a b hab; simp at hab; exact hkp a b (by rw [hab])⟩
          · refine ⟨⟨p1, [], rfl⟩, ?_, ?_⟩
            · intro q sub hns
              cases hns with
              | nil => exact ⟨_, List.mem_singleton_self _, by simp⟩
            · intro q mems k w hns hmem
              cases hns
        · -- number or failure
          rename_i c0 tl0 hx1 hx2 hx3 hx4 hx5 hx6
          split at h
          · cases hpn : parseNumber p1 (c0 :: tl0) with
            | error e => rw [hpn] at h; simp at h
            | ok t =>
              obtain ⟨raw, p2, r2⟩ := t
              rw [hpn] at h
              simp only at h
              cases h
              have hle : p1 ≤ pos' := parseNumber_ge p1 (c0 :: tl0) raw pos' cs' hpn
              refine ⟨by omega, ?_, ?_⟩
              · intro e he
                simp only [List.mem_singleton] at he
                subst he
                exact ⟨by simp; try omega, by intro a b hab; simp at hab; exact hkp a b (by rw [hab])⟩
              · refine ⟨⟨p1, [], rfl⟩, ?_, ?_⟩
                · intro q sub hns
                  cases hns with
                  | nil => exact ⟨_, List.mem_singleton_self _, by simp⟩
                · intro q mems k w hns hmem
                  cases hns
          · simp at h
    | members segs =>
      simp only [parseCore] at h
      split at h
      · -- cs = '"' :: _
        rename_i tl
        cases hps : parseString pos ('"' :: tl) with
        | error e => rw [hps] at h; simp at h
        | ok t =>
          obtain ⟨k, pk, cs2⟩ := t
          rw [hps] at h
          simp only at h
          have hpk : pos < pk := parseString_ge pos ('"' :: tl) k pk cs2 hps
          cases hsk3 : skipWs pk cs2 with
          | mk p3 cs3 =>
            have hp3 : pk ≤ p3 := by
              have := skipWs_ge pk cs2
              rw [hsk3] at this
              simpa using this
            rw [hsk3] at h
            simp only at h
            split at h
            · -- cs3 = ':' :: r
              rename_i r
              cases hrec : parseCore fuel (.value (segs ++ [k]) (some (pos, pk))) (p3 + 1) r with
              | error e => rw [hrec] at h; simp at h
              | ok t2 =>
                obtain ⟨r4, p4, cs4, es4⟩ := t2
                rw [hrec] at h
                cases r4 with
                | val v =>
                  simp only at h
                  obtain ⟨hv1, hv2, hv3⟩ := ih _ _ _ _ _ _ _
                    (by simp only [kpOf]; intro a b hab; cases hab; omega) hrec
                  simp only [coreSpec] at hv3
                  obtain ⟨⟨vs0, rest0, hhead⟩, hc1, hc2⟩ := hv3
                  cases hsk5 : skipWs p4 cs4 with
                  | mk p5 cs5 =>
                    have hp5 : p4 ≤ p5 := by
                      have := skipWs_ge p4 cs4
                      rw [hsk5] at this
                      simpa using this
                    rw [hsk5] at h
                    simp only at h
                    split at h
                    · -- cs5 = ',' :: r2
                      rename_i r2
                      cases hsk6 : skipWs (p5 + 1) r2 with
                      | mk p6 cs6 =>
                        rw [hsk6] at h
                        simp only at h
                        have hp6 : p5 + 1 ≤ p6 := by
                          have := skipWs_ge (p5 + 1) r2
                          rw [hsk6] at this
                          simpa using this
                        cases hrec2 : parseCore fuel (.members segs) p6 cs6 with
                        | error e => rw [hrec2] at h; simp at h
                        | ok t3 =>
                          obtain ⟨r7, p7, cs7, es7⟩ := t3
                          rw [hrec2] at h
                          cases r7 with
                          | mems ms2 =>
                            simp only at h
                            cases h
                            obtain ⟨hm1, hm2, hm3⟩ := ih _ _ _ _ _ _ _ (by simp [kpOf]) hrec2
                            simp only [coreSpec] at hm3
                            refine ⟨by omega, ?_, ?_⟩
                            · intro e he
                              rcases List.mem_append.mp he with he4 | he7
                              · exact hv2 e he4
                              · exact hm2 e he7
                            · intro k0 w0 hmem
                              rcases List.mem_cons.mp hmem with heq0 | htail
                              · cases heq0
                                refine ⟨?_, ?_, ?_⟩
                                · refine ⟨⟨segs ++ [k], vs0, p4, some (pos, pk)⟩, ?_, rfl, rfl⟩
                                  rw [hhead]
                                  exact List.mem_append_left _ (List.mem_cons_self _ _)
                                · intro q sub hns
                                  obtain ⟨e, he, hseg⟩ := hc1 q sub hns
                                  exact ⟨e, List.mem_append_left _ he, by rw [hseg]⟩
                                · intro q mems' k' w' hns hmem'
                                  obtain ⟨e, he, hseg, hsome⟩ := hc2 q mems' k' w' hns hmem'
                                  exact ⟨e, List.mem_append_left _ he, by rw [hseg], hsome⟩
                              · obtain ⟨hkey, hcc1, hcc2⟩ := hm3 k0 w0 htail
                                refine ⟨?_, ?_, ?_⟩
                                · obtain ⟨e, he, hseg, hsome⟩ := hkey
                                  exact ⟨e, List.mem_append_right _ he, hseg, hsome⟩
                                · intro q sub hns
                                  obtain ⟨e, he, hseg⟩ := hcc1 q sub hns
                                  exact ⟨e, List.mem_append_right _ he, hseg⟩
                                · intro q mems' k' w' hns hmem'
                                  obtain ⟨e, he, hseg, hsome⟩ := hcc2 q mems' k' w' hns hmem'
                                  exact ⟨e, List.mem_append_right _ he, hseg, hsome⟩
                          | val v2 => simp at h
                          | elems xs2 => simp at h
                    · -- cs5 = '\x7d' :: r2
                      cases h
                      refine ⟨by omega, hv2, ?_⟩
                      intro k0 w0 hmem
                      rcases List.mem_cons.mp hmem with heq0 | htail
                      · cases heq0
                        refine ⟨?_, ?_, ?_⟩
                        · refine ⟨⟨segs ++ [k], vs0, p4, some (pos, pk)⟩, ?_, rfl, rfl⟩
                          rw [hhead]
                          exact List.mem_cons_self _ _
                        · intro q sub hns
                          exact hc1 q sub hns
                        · intro q mems' k' w' hns hmem'
                          exact hc2 q mems' k' w' hns hmem'
                      · simp at htail
                    · simp at h
                | mems ms2 => simp at h
                | elems xs2 => simp at h
            · simp at h
      · simp at h
    | elems segs idx =>
      simp only [parseCore] at h
      cases hrec : parseCore fuel (.value (segs ++ [toDec idx]) none) pos cs with
      | error e => rw [hrec] at h; simp at h
      | ok t =>
        obtain ⟨r4, p4, cs4, es4⟩ := t
        rw [hrec] at h
        cases r4 with
        | val v =>
          simp only at h
          obtain ⟨hv1, hv2, hv3⟩ := ih _ _ _ _ _ _ _ (by simp [kpOf]) hrec
          simp only [coreSpec] at hv3
          obtain ⟨_, hc1, hc2⟩ := hv3
          cases hsk5 : skipWs p4 cs4 with
          | mk p5 cs5 =>
            have hp5 : p4 ≤ p5 := by
              have := skipWs_ge p4 cs4
              rw [hsk5] at this
              simpa using this
            rw [hsk5] at h
            simp only at h
            split at h
            · -- cs5 = ',' :: r2
              rename_i r2
              cases hrec2 : parseCore fuel (.elems segs (idx + 1)) (p5 + 1) r2 with
              | error e => rw [hrec2] at h; simp at h
              | ok t2 =>
                obtain ⟨r7, p7, cs7, es7⟩ := t2
                rw [hrec2] at h
                cases r7 with
                | elems xs2 =>
                  simp only at h
                  cases h
                  obtain ⟨he1, he2, he3⟩ := ih _ _ _ _ _ _ _ (by simp [kpOf]) hrec2
                  simp only [coreSpec] at he3
                  refine ⟨by omega, ?_, ?_⟩
                  · intro e he
                    rcases List.mem_append.mp he with he4 | he7
                    · exact hv2 e he4
                    · exact he2 e he7
                  · intro i w hget
                    cases i with
                    | zero =>
                      simp only [List.get?] at hget
                      cases hget
                      refine ⟨?_, ?_⟩
                      · intro q sub hns
                        obtain ⟨e, he, hseg⟩ := hc1 q sub hns
                        exact ⟨e, List.mem_append_left _ he, by rw [hseg]; simp⟩
                      · intro q mems' k' w' hns hmem'
                        obtain ⟨e, he, hseg, hsome⟩ := hc2 q mems' k' w' hns hmem'
                        exact ⟨e, List.mem_append_left _ he, by rw [hseg]; simp, hsome⟩
                    | succ j =>
                      simp only [List.get?] at hget
                      obtain ⟨hh1, hh2⟩ := he3 j w hget
                      have hix : idx + 1 + j = idx + (j + 1) := by omega
                      refine ⟨?_, ?_⟩
                      · intro q sub hns
                        obtain ⟨e, he, hseg⟩ := hh1 q sub hns
                        rw [hix] at hseg
                        exact ⟨e, List.mem_append_right _ he, hseg⟩
                      · intro q mems' k' w' hns hmem'
                        obtain ⟨e, he, hseg, hsome⟩ := hh2 q mems' k' w' hns hmem'
                        rw [hix] at hseg
                        exact ⟨e, List.mem_append_right _ he, hseg, hsome⟩
                | val v2 => simp at h
                | mems ms2 => simp at h
            · -- cs5 = ']' :: r2
              cases h
              refine ⟨by omega, hv2, ?_⟩
              intro i w hget
              cases i with
              | zero =>
                simp only [List.get?] at hget
                cases hget
                refine ⟨?_, ?_⟩
                · intro q sub hns
                  obtain ⟨e, he, hseg⟩ := hc1 q sub hns
                  exact ⟨e, he, by rw [hseg]; simp⟩
                · intro q mems' k' w' hns hmem'
                  obtain ⟨e, he, hseg, hsome⟩ := hc2 q mems' k' w' hns hmem'
                  exact ⟨e, he, by rw [hseg]; simp, hsome⟩
              | succ j => simp [List.get?] at hget
            · simp at h
        | mems ms2 => simp at h
        | elems xs2 => simp at h

/-! ### `calculate` postcondition -/

theorem calculate_inv (text : Str) (v : JVal) (es : List SMEntry)
    (h : calculate text = .ok (v, es)) :
    (∀ e ∈ es, entryOrdered e) ∧ CoversP [] v es := by
  unfold calculate at h
  cases hpv : parseValue (2 * text.length + 8) [] none 0 text with
  | error e => rw [hpv] at h; simp at h
  | ok t =>
    obtain ⟨v0, p, rest, es0⟩ := t
    rw [hpv] at h
    simp only at h
    cases hsk : skipWs p rest with
    | mk p2 rest2 =>
      rw [hsk] at h
      simp only at h
      split at h
      · cases h
        unfold parseValue at hpv
        cases hpc : parseCore (2 * text.length + 8) (.value [] none) 0 text with
        | error e => rw [hpc] at hpv; simp at hpv
        | ok t2 =>
          obtain ⟨r, p', r', es'⟩ := t2
          rw [hpc] at hpv
          cases r with
          | val vv =>
            simp only [Except.ok.injEq, Prod.mk.injEq] at hpv
            obtain ⟨h1, h2, h3, h4⟩ := hpv
            subst h1; subst h2; subst h3; subst h4
            obtain ⟨-, hord, hcs⟩ := parseCore_inv _ _ _ _ _ _ _ _ (by simp [kpOf]) hpc
            simp only [coreSpec] at hcs
            exact ⟨hord, hcs.2⟩
          | mems ms => simp at hpv
          | elems xs => simp at hpv
      · simp at h

/-! ### `mkLocationInfo` -/

theorem mkLocationInfo_ok (ps : List LocationInfo) (key kind : Str)
    (scn sln slcn ecn eln elcn : Nat) (loc : LocationInfo)
    (h : mkLocationInfo ps key kind scn sln slcn ecn eln elcn = .ok loc) :
    loc = .mk ps key kind scn sln slcn ecn eln elcn := by
  unfold mkLocationInfo at h
  split at h
  · cases h; rfl
  · simp at h

theorem mkLocationInfo_pos (ps : List LocationInfo) (key kind : Str)
    (scn sln slcn ecn eln elcn : Nat)
    (h : 1 ≤ scn ∧ 1 ≤ sln ∧ 1 ≤ slcn ∧ 1 ≤ ecn ∧ 1 ≤ eln ∧ 1 ≤ elcn) :
    mkLocationInfo ps key kind scn sln slcn ecn eln elcn =
      .ok (.mk ps key kind scn sln slcn ecn eln elcn) := by
  unfold mkLocationInfo
  rw [if_pos h]

/-! ### `buildStep` / `buildRaw` -/

theorem append_ne_self (x y : Str) (h : y ≠ []) : x ++ y ≠ x := by
  intro heq
  have := congrArg List.length heq
  simp only [List.length_append] at this
  have : y.length = 0 := by omega
  exact h (List.length_eq_zero.mp this)

theorem offsetDerived_withParents (text : Str) (l : LocationInfo)
    (ps : List LocationInfo) (h : offsetDerived text l) :
    offsetDerived text (l.withParents ps) := by
  obtain ⟨a, b, hab, h1, h2, h3, h4, h5, h6⟩ := h
  exact ⟨a, b, hab, by rw [withParents_scn]; exact h1, by rw [withParents_sln]; exact h2,
    by rw [withParents_slcn]; exact h3, by rw [withParents_ecn]; exact h4,
    by rw [withParents_eln]; exact h5, by rw [withParents_elcn]; exact h6⟩

theorem buildStep_ok (text : Str) (data : JVal) (m : PathMap) (e : SMEntry)
    (m' : PathMap) (h : buildStep text data m e = .ok m') :
    (∀ p, (dfind? m p).isSome = true → (dfind? m' p).isSome = true) ∧
    (dfind? m' (pointerToPath (ptrStrOfSegs e.segs))).isSome = true ∧
    (e.keySpan.isSome = true →
      (dfind? m' (pointerToPath (ptrStrOfSegs e.segs) ++ S ".__key__")).isSome = true) ∧
    (entryOrdered e →
      ∀ p loc, dfind? m' p = some loc → dfind? m p = some loc ∨ offsetDerived text loc) := by
  simp only [buildStep, bind, Except.bind] at h
  cases hrp : resolvePointer data (ptrStrOfSegs e.segs) with
  | error ex => rw [hrp] at h; simp at h
  | ok val =>
    rw [hrp] at h
    simp only at h
    cases hmk : mkLocationInfo [] (lastSegment (pointerToPath (ptrStrOfSegs e.segs))) (inferKind val)
        (e.vs + 1) ((lineColOfOffset text e.vs).1 + 1) ((lineColOfOffset text e.vs).2 + 1)
        (e.ve + 1) ((lineColOfOffset text e.ve).1 + 1) ((lineColOfOffset text e.ve).2 + 1) with
    | error ex => rw [hmk] at h; simp at h
    | ok vloc =>
      rw [hmk] at h
      simp only at h
      have hvloc := mkLocationInfo_ok _ _ _ _ _ _ _ _ _ _ hmk
      have hvder : e.vs ≤ e.ve → offsetDerived text vloc := by
        intro hve
        exact ⟨e.vs, e.ve, hve, by rw [hvloc]; rfl, by rw [hvloc]; rfl, by rw [hvloc]; rfl,
          by rw [hvloc]; rfl, by rw [hvloc]; rfl, by rw [hvloc]; rfl⟩
      cases hks : e.keySpan with
      | none =>
        rw [hks] at h
        simp only [pure, Except.pure, Except.ok.injEq] at h
        subst h
        refine ⟨?_, ?_, ?_, ?_⟩
        · intro p hp
          rw [dfind?_dinsert]
          split
          · rfl
          · exact hp
        · rw [dfind?_dinsert, if_pos rfl]; rfl
        · intro hkss; simp at hkss
        · intro hord p loc hpl
          rw [dfind?_dinsert] at hpl
          split at hpl
          · cases hpl; right; exact hvder hord.1
          · left; exact hpl
      | some kp =>
        obtain ⟨ks, ke⟩ := kp
        rw [hks] at h
        simp only at h
        cases hmk2 : mkLocationInfo [] (lastSegment (pointerToPath (ptrStrOfSegs e.segs))) (S "key")
            (ks + 1) ((lineColOfOffset text ks).1 + 1) ((lineColOfOffset text ks).2 + 1)
            (ke + 1) ((lineColOfOffset text ke).1 + 1) ((lineColOfOffset text ke).2 + 1) with
        | error ex => rw [hmk2] at h; simp at h
        | ok kloc =>
          rw [hmk2] at h
          simp only [pure, Except.pure, Except.ok.injEq] at h
          subst h
          have hkloc := mkLocationInfo_ok _ _ _ _ _ _ _ _ _ _ hmk2
          have hkder : ks ≤ ke → offsetDerived text kloc := by
            intro hke
            exact ⟨ks, ke, hke, by rw [hkloc]; rfl, by rw [hkloc]; rfl, by rw [hkloc]; rfl,
              by rw [hkloc]; rfl, by rw [hkloc]; rfl, by rw [hkloc]; rfl⟩
          have hne : pointerToPath (ptrStrOfSegs e.segs) ++ S ".__key__" ≠
              pointerToPath (ptrStrOfSegs e.segs) :=
            append_ne_self _ _ (by decide)
          refine ⟨?_, ?_, ?_, ?_⟩
          · intro p hp
            rw [dfind?_dinsert, dfind?_dinsert]
            split
            · rfl
            · split
              · rfl
              · exact hp
          · rw [dfind?_dinsert, if_neg hne.symm, dfind?_dinsert, if_pos rfl]; rfl
          · intro _
            rw [dfind?_dinsert, if_pos rfl]; rfl
          · intro hord p loc hpl
            rw [dfind?_dinsert] at hpl
            split at hpl
            · cases hpl; right; exact hkder (hord.2 ks ke hks)
            · rw [dfind?_dinsert] at hpl
              split at hpl
              · cases hpl; right; exact hvder hord.1
              · left; exact hpl

theorem buildFold_ok (text : Str) (data : JVal) : ∀ (entries : List SMEntry) (m0 m : PathMap),
    List.foldlM (buildStep text data) m0 entries = .ok m →
    (∀ p, (dfind? m0 p).isSome = true → (dfind? m p).isSome = true) ∧
    (∀ e ∈ entries, (dfind? m (pointerToPath (ptrStrOfSegs e.segs))).isSome = true ∧
      (e.keySpan.isSome = true →
        (dfind? m (pointerToPath (ptrStrOfSegs e.segs) ++ S ".__key__")).isSome = true)) ∧
    ((∀ e ∈ entries, entryOrdered e) →
      ∀ p loc, dfind? m p = some loc → dfind? m0 p = some loc ∨ offsetDerived text loc) := by
  intro entries
  induction entries with
  | nil =>
    intro m0 m h
    simp only [List.foldlM_nil, pure, Except.pure, Except.ok.injEq] at h
    subst h
    exact ⟨fun p hp => hp, by simp, fun _ p loc hpl => .inl hpl⟩
  | cons e rest ih =>
    intro m0 m h
    rw [List.foldlM_cons] at h
    cases hstep : buildStep text data m0 e with
    | error ex => rw [hstep] at h; simp [bind, Except.bind] at h
    | ok m1 =>
      rw [hstep] at h
      simp only [bind, Except.bind] at h
      obtain ⟨ihmono, ihmem, ihback⟩ := ih m1 m h
      obtain ⟨smono, sself, skey, sback⟩ := buildStep_ok text data m0 e m1 hstep
      refine ⟨?_, ?_, ?_⟩
      · intro p hp
        exact ihmono p (smono p hp)
      · intro e' he'
        rcases List.mem_cons.mp he' with heq | htail
        · subst heq
          exact ⟨ihmono _ sself, fun hkss => ihmono _ (skey hkss)⟩
        · exact ihmem e' htail
      · intro hord p loc hpl
        rcases ihback (fun e' he' => hord e' (List.mem_cons_of_mem _ he')) p loc hpl with h1 | h2
        · rcases sback (hord e (List.mem_cons_self _ _)) p loc h1 with h3 | h4
          · exact .inl h3
          · exact .inr h4
        · exact .inr h2

theorem buildRaw_covers (text : Str) (data : JVal) (entries : List SMEntry) (m : PathMap)
    (h : buildRaw text data entries = .ok m) :
    ∀ e ∈ entries, (dfind? m (dotPathOfSegs e.segs)).isSome = true ∧
      (e.keySpan.isSome = true →
        (dfind? m (dotPathOfSegs e.segs ++ S ".__key__")).isSome = true) := by
  simp only [dotPathOfSegs]
  exact (buildFold_ok text data entries [] m h).2.1

theorem buildRaw_derived (text : Str) (data : JVal) (entries : List SMEntry) (m : PathMap)
    (h : buildRaw text data entries = .ok m) (hord : ∀ e ∈ entries, entryOrdered e) :
    ∀ p loc, dfind? m p = some loc → offsetDerived text loc := by
  intro p loc hpl
  rcases (buildFold_ok text data entries [] m h).2.2 hord p loc hpl with h1 | h2
  · simp [dfind?_nil] at h1
  · exact h2

/-! ### `linkMap` corollaries -/

theorem dfind?_linkMap_isSome (m : PathMap) (p : Str) :
    (dfind? (linkMap m) p).isSome = (dfind? m p).isSome := by
  rw [dfind?_linkMap]
  cases dfind? m p <;> rfl

theorem linkMap_derived (text : Str) (m : PathMap) (p : Str) (loc : LocationInfo)
    (h : dfind? (linkMap m) p = some loc)
    (hall : ∀ q l, dfind? m q = some l → offsetDerived text l) :
    offsetDerived text loc := by
  rw [dfind?_linkMap] at h
  cases hd : dfind? m p with
  | none => rw [hd] at h; simp at h
  | some l =>
    rw [hd] at h
    simp only [Option.map_some'] at h
    cases h
    exact offsetDerived_withParents text l _ (hall p l hd)

/-! ### Decode-error line/column positivity -/

theorem lastNLBefore_lt (text : Str) (pos i : Nat)
    (h : lastNLBefore text pos = some i) : i < pos := by
  unfold lastNLBefore at h
  have hmem : i ∈ (List.range pos).filter (fun j => text.getD j ' ' = '\n') :=
    List.mem_of_getLast?_eq_some h
  have hr := List.mem_filter.mp hmem
  exact List.mem_range.mp hr.1

theorem errColno_pos (text : Str) (pos : Nat) : 1 ≤ errColno text pos := by
  unfold errColno
  cases h : lastNLBefore text pos with
  | none =>
    show 1 ≤ pos + 1
    omega
  | some i =>
    show 1 ≤ pos - i
    have := lastNLBefore_lt text pos i h
    omega

/-! ### The error branch of the builder -/

theorem clm_error_shape (text : Str) (b : Bool) (epos : Nat) (m : PathMap)
    (hc : calculate text = .error epos)
    (hm : createLocationMapping text b = .ok m) :
    ∃ loc, m = [(S "$.__error__", loc)] := by
  unfold createLocationMapping at hm
  rw [hc] at hm
  simp only [bind, Except.bind] at hm
  cases hmk1 : mkLocationInfo [] (S "$") (S "object") 1 1 1 (max 1 text.length)
      (errLineno text epos) (errColno text epos) with
  | error ex => rw [hmk1] at hm; simp at hm
  | ok rootLoc =>
    rw [hmk1] at hm
    simp only at hm
    cases hmk2 : mkLocationInfo [rootLoc] (S "__error__") (S "string")
        (epos + 1) (errLineno text epos) (errColno text epos)
        (if 0 < text.length then min text.length (epos + 1) + 1 else 1)
        (errLineno text epos)
        (min (errColno text epos + 1) (max 1 (lineLengthAt text (errLineno text epos)))) with
    | error ex => rw [hmk2] at hm; simp at hm
    | ok errLoc =>
      rw [hmk2] at hm
      simp only at hm
      split at hm
      · simp at hm
      · simp only [Except.ok.injEq] at hm
        exact ⟨errLoc, hm.symm⟩

theorem clm_ok_linkMap (text : Str) (b : Bool) (data : JVal) (entries : List SMEntry)
    (m : PathMap) (hc : calculate text = .ok (data, entries))
    (hm : createLocationMapping text b = .ok m) :
    ∃ raw, buildRaw text data entries = .ok raw ∧ m = linkMap raw := by
  unfold createLocationMapping at hm
  rw [hc] at hm
  simp only [bind, Except.bind] at hm
  cases hbr : buildRaw text data entries with
  | error ex => rw [hbr] at hm; simp at hm
  | ok raw =>
    rw [hbr] at hm
    simp only [Except.ok.injEq] at hm
    exact ⟨raw, rfl, hm.symm⟩

theorem clm_derived (text : Str) (b : Bool) (m : PathMap) (p : Str) (loc : LocationInfo)
    (hm : createLocationMapping text b = .ok m)
    (hp : p ≠ S "$.__error__")
    (hfind : dfind? m p = some loc) :
    offsetDerived text loc := by
  cases hc : calculate text with
  | error epos =>
    obtain ⟨l0, hshape⟩ := clm_error_shape text b epos m hc hm
    subst hshape
    rw [dfind?_cons] at hfind
    split at hfind
    · rename_i hcond
      exact absurd hcond.symm hp
    · simp [dfind?_nil] at hfind
  | ok de =>
    obtain ⟨data, entries⟩ := de
    obtain ⟨raw, hbr, hlm⟩ := clm_ok_linkMap text b data entries m hc hm
    subst hlm
    obtain ⟨hord, -⟩ := calculate_inv text data entries hc
    exact linkMap_derived text raw p loc hfind
      (buildRaw_derived text data entries raw hbr hord)

/-- C1 (amended): every location of a map returned by `create_location_mapping`
(other than the synthetic error entry) carries position fields derived from one
0-based source span `[s, e)`; the line/column-converted slice of Invariant I1
recovers exactly the characters of that span, while the absolute-character slice
`text[start_character_number - 1 : end_character_number]` equals it extended by
the single source character at offset `e`.  The two slices of Invariant I1 as
specified are therefore NOT equal in general (the claim's round-trip property
fails whenever the span ends before the end of the text); this is the corrected
relationship. -/
theorem C1_slice_roundtrip (text : Str) (b : Bool) (m : PathMap) (p : Str) (loc : LocationInfo)
    (hm : createLocationMapping text b = .ok m)
    (hp : p ≠ S "$.__error__")
    (hfind : dfind? m p = some loc) :
    ∃ s e, s ≤ e ∧
      loc.start_character_number = s + 1 ∧ loc.end_character_number = e + 1 ∧
      sliceLC text loc = pySlice text s e ∧
      sliceAbs text loc = pySlice text s e ++ pySlice text e (e + 1) := by
  obtain ⟨s, e, hse, h1, h2, h3, h4, h5, h6⟩ := clm_derived text b m p loc hm hp hfind
  refine ⟨s, e, hse, h1, h4, ?_, ?_⟩
  · unfold sliceLC
    rw [h2, h3, h5, h6, lineColConsistent, lineColConsistent]
  · unfold sliceAbs
    rw [h1, h4]
    simp only [Nat.add_sub_cancel]
    exact pySlice_append text s e (e + 1) hse (Nat.le_succ e)

/-- C4: for every well-formed JSON input, the map returned by
`create_location_mapping` contains an entry for every value of the document at
its canonical dot path, and an entry for every object key at the value path
suffixed with `.__key__`. -/
theorem C4_coverage (text : Str) (data : JVal) (entries : List SMEntry) (m : PathMap)
    (hc : calculate text = .ok (data, entries))
    (hm : createLocationMapping text false = .ok m) :
    (∀ q sub, NodeSegs data q sub → (dfind? m (dotPathOfSegs q)).isSome = true) ∧
    (∀ q mems k w, NodeSegs data q (.obj mems) → (k, w) ∈ mems →
       (dfind? m (dotPathOfSegs (q ++ [k]) ++ S ".__key__")).isSome = true) := by
  obtain ⟨raw, hbr, hlm⟩ := clm_ok_linkMap text false data entries m hc hm
  subst hlm
  obtain ⟨hord, hcov1, hcov2⟩ := calculate_inv text data entries hc
  constructor
  · intro q sub hns
    obtain ⟨e, he, hseg⟩ := hcov1 q sub hns
    simp only [List.nil_append] at hseg
    rw [dfind?_linkMap_isSome]
    have := (buildRaw_covers text data entries raw hbr e he).1
    rw [hseg] at this
    exact this
  · intro q mems k w hns hmem
    obtain ⟨e, he, hseg, hkss⟩ := hcov2 q mems k w hns hmem
    simp only [List.nil_append] at hseg
    rw [dfind?_linkMap_isSome]
    have := (buildRaw_covers text data entries raw hbr e he).2 hkss
    rw [hseg] at this
    exact this

/-- C5 (amended): for every path of the returned map, the location's `parents`
field equals the ordered, root-first list of the locations found in the map at
its strict-prefix ancestor paths.  (The claim's clause that key locations never
serve as structural parents is false — the ancestor lookup is purely textual on
dot paths, so a literal key containing `.__key__.` makes a key-kind location a
structural parent; see the counterexample.) -/
theorem C5_parent_chain (text : Str) (b : Bool) (m : PathMap) (p : Str) (loc : LocationInfo)
    (hm : createLocationMapping text b = .ok m) (hp : p ≠ S "$.__error__")
    (hfind : dfind? m p = some loc) :
    loc.parents = (ancestorsOf p).filterMap (dfind? m) := by
  cases hc : calculate text with
  | error epos =>
    obtain ⟨l0, hshape⟩ := clm_error_shape text b epos m hc hm
    subst hshape
    rw [dfind?_cons] at hfind
    split at hfind
    · rename_i hcond
      exact absurd hcond.symm hp
    · simp [dfind?_nil] at hfind
  | ok de =>
    obtain ⟨data, entries⟩ := de
    obtain ⟨raw, hbr, hlm⟩ := clm_ok_linkMap text b data entries m hc hm
    subst hlm
    exact linkMap_parents raw p loc hfind

/-- C7: for every malformed input, `create_location_mapping` (with
`raise_on_error=False`) returns exactly the single-entry map at `$.__error__`,
whose location uses the parser's failure offset/line/column as its start
(1-based), whose end character number is the failure offset + 1 clamped to the
text length and converted to the 1-based exclusive convention (`1` for empty
input), and whose end line/column is the failure's reported line with the
column clamped to that line's length or one past it — and the two pydantic
validations involved always succeed. -/
theorem C7_error_location (text : Str) (epos : Nat)
    (hc : calculate text = .error epos) :
    ∃ loc, createLocationMapping text false = .ok [(S "$.__error__", loc)] ∧
      loc.key = S "__error__" ∧
      loc.start_character_number = epos + 1 ∧
      loc.start_line_number = errLineno text epos ∧
      loc.start_line_character_number = errColno text epos ∧
      loc.end_character_number =
        (if 0 < text.length then min text.length (epos + 1) + 1 else 1) ∧
      loc.end_line_number = errLineno text epos ∧
      loc.end_line_character_number =
        min (errColno text epos + 1) (max 1 (lineLengthAt text (errLineno text epos))) := by
  have hline : 1 ≤ errLineno text epos := by unfold errLineno; omega
  have hcol := errColno_pos text epos
  refine ⟨.mk [.mk [] (S "$") (S "object") 1 1 1 (max 1 text.length)
      (errLineno text epos) (errColno text epos)]
    (S "__error__") (S "string") (epos + 1) (errLineno text epos) (errColno text epos)
    (if 0 < text.length then min text.length (epos + 1) + 1 else 1)
    (errLineno text epos)
    (min (errColno text epos + 1) (max 1 (lineLengthAt text (errLineno text epos)))),
    ?_, rfl, rfl, rfl, rfl, rfl, rfl, rfl⟩
  unfold createLocationMapping
  rw [hc]
  simp only [bind, Except.bind]
  rw [mkLocationInfo_pos [] (S "$") (S "object") 1 1 1 (max 1 text.length)
    (errLineno text epos) (errColno text epos)
    ⟨le_refl 1, le_refl 1, le_refl 1, le_max_left 1 _, hline, hcol⟩]
  simp only
  rw [mkLocationInfo_pos _ _ _ _ _ _ _ _ _
    ⟨by omega, hline, hcol, by split <;> omega, hline, by omega⟩]
  simp only [Bool.false_eq_true, if_false]

/-- C8 (amended): in every context whose location kind is not `string`, the
path-not-found condition is raised only by the strict indexer: `__getitem__`
fails only with `KeyError`, `get` maps exactly the failing cases to the default
and the succeeding cases to the item, and `__contains__` is a total Boolean
that is true exactly when `__getitem__` succeeds.  (For string-kind contexts
`__getitem__` delegates to Python subscription of the parsed value, whose
`TypeError` escapes `get`; see the counterexample.) -/
theorem C8_not_found (t : TJ) (key : PyKey) (hk : ¬ t.location.kind = S "string") :
    (∀ e, tjGetItem t key = .error e → ∃ k, e = .keyError k) ∧
    (∀ e, tjGetItem t key = .error e → tjGet t key = .ok none) ∧
    (∀ r, tjGetItem t key = .ok r → tjGet t key = .ok (some r)) ∧
    (tjContains t key = true ↔ ∃ r, tjGetItem t key = .ok r) := by
  by_cases habs : pyStarts (pyKeyStr key) (S "$") = true ∨ pyStarts (pyKeyStr key) (S "/") = true
  · cases hfind : dfind? t.locations (normalizePath t (pyKeyStr key)) with
    | none =>
      have hgi : tjGetItem t key = .error (.keyError (normalizePath t (pyKeyStr key))) := by
        unfold tjGetItem
        rw [if_pos habs]
        simp only [hfind]
      have hct : tjContains t key = false := by
        unfold tjContains
        rw [if_pos habs]
        simp only [hfind, Option.isSome]
      refine ⟨?_, ?_, ?_, ?_⟩
      · intro e he
        rw [hgi] at he
        simp only [Except.error.injEq] at he
        exact ⟨_, he.symm⟩
      · intro e he
        unfold tjGet
        rw [hgi]
      · intro r hr
        rw [hgi] at hr
        simp at hr
      · rw [hct]
        constructor
        · intro hcon; simp at hcon
        · rintro ⟨r, hr⟩
          rw [hgi] at hr
          simp at hr
    | some loc =>
      have hgi : tjGetItem t key = .ok (.ctx (mkSubCtx t loc (normalizePath t (pyKeyStr key)))) := by
        unfold tjGetItem
        rw [if_pos habs]
        simp only [hfind]
      have hct : tjContains t key = true := by
        unfold tjContains
        rw [if_pos habs]
        simp only [hfind, Option.isSome]
      refine ⟨?_, ?_, ?_, ?_⟩
      · intro e he
        rw [hgi] at he
        simp at he
      · intro e he
        rw [hgi] at he
        simp at he
      · intro r hr
        rw [hgi] at hr
        simp only [Except.ok.injEq] at hr
        unfold tjGet
        rw [hgi, hr]
      · rw [hct]
        exact ⟨fun _ => ⟨_, hgi⟩, fun _ => rfl⟩
  · cases hfind : dfind? (directChildLocs t) (pyKeyStr key) with
    | none =>
      have hgi : tjGetItem t key = .error (.keyError (pyKeyStr key)) := by
        unfold tjGetItem
        rw [if_neg habs, if_neg hk]
        simp only [hfind]
      have hct : tjContains t key = false := by
        unfold tjContains
        rw [if_neg habs]
        simp only [hfind, Option.isSome]
      refine ⟨?_, ?_, ?_, ?_⟩
      · intro e he
        rw [hgi] at he
        simp only [Except.error.injEq] at he
        exact ⟨_, he.symm⟩
      · intro e he
        unfold tjGet
        rw [hgi]
      · intro r hr
        rw [hgi] at hr
        simp at hr
      · rw [hct]
        constructor
        · intro hcon; simp at hcon
        · rintro ⟨r, hr⟩
          rw [hgi] at hr
          simp at hr
    | some child =>
      have hgi : tjGetItem t key = .ok (.ctx (mkSubCtx t child
          (if t.path = S "$" then S "$." ++ pyKeyStr key
           else t.path ++ S "." ++ pyKeyStr key))) := by
        unfold tjGetItem
        rw [if_neg habs, if_neg hk]
        simp only [hfind]
      have hct : tjContains t key = true := by
        unfold tjContains
        rw [if_neg habs]
        simp only [hfind, Option.isSome]
      refine ⟨?_, ?_, ?_, ?_⟩
      · intro e he
        rw [hgi] at he
        simp at he
      · intro e he
        rw [hgi] at he
        simp at he
      · intro r hr
        rw [hgi] at hr
        simp only [Except.ok.injEq] at hr
        unfold tjGet
        rw [hgi, hr]
      · rw [hct]
        exact ⟨fun _ => ⟨_, hgi⟩, fun _ => rfl⟩

/-- C9: resolving a JSON-Pointer key through the document view yields exactly
the same result as resolving the corresponding canonical dot path produced by
`_pointer_to_dot`; the empty pointer and the lone-slash pointer both denote the
root path, and RFC 6901 unescaping maps `~1` to `/` and `~0` to `~` within a
segment. -/
theorem C9_pointer_roundtrip (t : TJ) (ptr : Str) (hp : pyStarts ptr (S "/") = true) :
    tjGetItem t (.str ptr) = tjGetItem t (.str (pointerToDot ptr)) ∧
    pointerToDot [] = S "$" ∧ pointerToDot ['/'] = S "$" ∧
    unescapeTok (S "a~1b~0c") = S "a/b~c" := by
  refine ⟨?_, rfl, rfl, by decide⟩
  have hne : ptr ≠ [] := by
    intro hE
    subst hE
    simp [pyStarts, S, List.isPrefixOf] at hp
  have hdstart : pyStarts (pointerToDot ptr) (S "$") = true := by
    unfold pointerToDot
    split
    · decide
    · simp [pyStarts, S, List.isPrefixOf]
  have hdnoslash : pyStarts (pointerToDot ptr) (S "/") = false := by
    unfold pointerToDot
    split
    · decide
    · simp [pyStarts, S, List.isPrefixOf]
  have hnp1 : normalizePath t ptr = pointerToDot ptr := by
    unfold normalizePath
    rw [if_neg hne, if_pos hp]
  have hdne : pointerToDot ptr ≠ [] := by
    intro hE
    rw [hE] at hdstart
    simp [pyStarts, S, List.isPrefixOf] at hdstart
  have hnp2 : normalizePath t (pointerToDot ptr) = pointerToDot ptr := by
    unfold normalizePath
    rw [if_neg hdne]
    rw [hdnoslash]
    simp only [Bool.false_eq_true, if_false]
    rw [if_pos hdstart]
  unfold tjGetItem
  simp only [pyKeyStr]
  rw [if_pos (Or.inr hp), if_pos (Or.inl hdstart), hnp1, hnp2]

/-- C10 (amended): `TrackedJson.__init__` evaluates the full-text fallback
location eagerly even when the root path is present, so for every input that is
empty or whose last line is empty, the fallback's pydantic validation fails
(its end offset or end column is 0), and construction raises a validation error
whenever `create_location_mapping` itself returns a map.  (The claim's
"regardless of the raise_on_error flag" is too strong: for empty input with
`raise_on_error=True` the builder raises a decode error first; see the
counterexample.) -/
theorem C10_eager_fallback (text : Str) (b : Bool)
    (h : text.length = 0 ∨ (splitNoKeep text).getLastD [] = []) :
    getFullLocation text = .error .validationError ∧
    ∀ m, createLocationMapping text b = .ok m → tjInit text b = .error .validationError := by
  have hgf : getFullLocation text = .error .validationError := by
    rcases h with h0 | hlast
    · have hT : text = [] := List.length_eq_zero.mp h0
      subst hT
      rfl
    · have hll : (match splitNoKeep text with | [] => [[]] | ls => ls).getLastD [] = ([] : Str) := by
        cases hsk : splitNoKeep text with
        | nil => rfl
        | cons a as =>
          simp only
          rw [← hsk]
          exact hlast
      unfold getFullLocation mkLocationInfo
      rw [if_neg]
      intro hcon
      obtain ⟨-, -, -, -, -, h6⟩ := hcon
      rw [hll] at h6
      simp at h6
  refine ⟨hgf, ?_⟩
  intro m hm
  unfold tjInit
  simp only [bind, Except.bind]
  rw [hm]
  simp only
  rw [hgf]

/-- C1 counterexample: on a one-line object input, the builder's location for
the path of its single member has an absolute-character slice that differs from
its line/column slice, refuting the round-trip slice property as claimed. -/
theorem C1_counterexample :
    createLocationMapping c1text false = .ok c1map ∧
    dfind? c1map (S "$.a") = some c1loc ∧
    sliceAbs c1text c1loc ≠ sliceLC c1text c1loc := by
  refine ⟨rfl, rfl, by decide⟩

/-- C1 witness: the amended slice relationship at a concrete built location. -/
theorem C1_slice_roundtrip_witness :
    ∃ s e, s ≤ e ∧
      c1loc.start_character_number = s + 1 ∧ c1loc.end_character_number = e + 1 ∧
      sliceLC c1text c1loc = pySlice c1text s e ∧
      sliceAbs c1text c1loc = pySlice c1text s e ++ pySlice c1text e (e + 1) :=
  C1_slice_roundtrip c1text false c1map (S "$.a") c1loc rfl (by decide) rfl

/-- C2: a crafted location map whose value slice is not standalone-parsable
JSON and whose child span lies outside its parent's span, yet
`self_test_locations` reports no problems — the value-validation branch of the
self test is dead code (guarded by a kind that never occurs), so invariants I3
and I4 are not asserted. -/
theorem C2_dead_value_checks :
    selfTestLocations c2text c2locs = [] ∧
    jsonLoads (sliceAbs c2text c2loc1) = .error 1 ∧
    ¬ (c2loc0.start_character_number ≤ c2loc1.start_character_number ∧
       c2loc1.end_character_number ≤ c2loc0.end_character_number) := by
  refine ⟨rfl, rfl, by decide⟩

/-- C3: `create_location_mapping` with `raise_on_error=False` raises an
uncaught `KeyError` on a valid document whose root object has an empty-string
key holding a nested object: `_resolve_pointer` strips ALL leading slashes from
the pointer, so the nested member's pointer loses its empty first segment and
the lookup fails — refuting the claim that the builder never raises. -/
theorem C3_resolve_pointer_raises :
    excOfMap (createLocationMapping (S "\x7b\"\":\x7b\"a\":1\x7d\x7d") false) =
      some (.keyError (S "a")) := rfl

/-- C4 witness: coverage at a concrete document. -/
theorem C4_coverage_witness :
    (∀ q sub, NodeSegs c4de.1 q sub → (dfind? c4map (dotPathOfSegs q)).isSome = true) ∧
    (∀ q mems k w, NodeSegs c4de.1 q (.obj mems) → (k, w) ∈ mems →
       (dfind? c4map (dotPathOfSegs (q ++ [k]) ++ S ".__key__")).isSome = true) :=
  C4_coverage c4text c4de.1 c4de.2 c4map rfl rfl

/-- C5 counterexample: a literal object key containing `.__key__.` makes the
key-kind location of another member a structural parent, refuting the claim
that key locations never serve as structural parents. -/
theorem C5_key_parent :
    createLocationMapping c5text false = .ok c5map ∧
    dfind? c5map (S "$.x.__key__.y") = some c5loc ∧
    c5loc.parents.map LocationInfo.kind = [S "object", S "number", S "key"] :=
  ⟨rfl, rfl, rfl⟩

/-- C5 witness: the amended parent-chain property on the claim's own example
document, whose parent chain at `$.user.name` reads as the keys `$`, `user`. -/
theorem C5_parent_chain_witness :
    adaLoc.parents = (ancestorsOf (S "$.user.name")).filterMap (dfind? adaMap) ∧
    adaLoc.parents.map LocationInfo.key = [S "$", S "user"] :=
  ⟨C5_parent_chain adaText false adaMap (S "$.user.name") adaLoc rfl (by decide) rfl, rfl⟩

/-- C6 (amended): on the claim's nested-arrays input, the path
`$.items.0.tags.1` resolves through the document view to the standalone value
`"b"`, and that location's level — the length of its parents list — equals 4
(the parents are the root, `$.items`, `$.items.0` and `$.items.0.tags`), not 3
as claimed. -/
theorem C6_level_and_value :
    tjGetItem c6tj (.str (S "$.items.0.tags.1")) = .ok (.ctx c6sub) ∧
    tjToValue c6sub = .ok (.str (S "b")) ∧
    c6sub.location.level = 4 :=
  ⟨rfl, rfl, rfl⟩

/-- C6 counterexample: the level of the location at `$.items.0.tags.1` is not
3. -/
theorem C6_level_not_three :
    tjGetItem c6tj (.str (S "$.items.0.tags.1")) = .ok (.ctx c6sub) ∧
    c6sub.location.level ≠ 3 :=
  ⟨rfl, by decide⟩

/-- C7 witness: the synthetic error location for a truncated input. -/
theorem C7_error_location_witness :
    ∃ loc, createLocationMapping (S "[") false = .ok [(S "$.__error__", loc)] ∧
      loc.key = S "__error__" ∧
      loc.start_character_number = 1 + 1 ∧
      loc.start_line_number = errLineno (S "[") 1 ∧
      loc.start_line_character_number = errColno (S "[") 1 ∧
      loc.end_character_number =
        (if 0 < (S "[").length then min (S "[").length (1 + 1) + 1 else 1) ∧
      loc.end_line_number = errLineno (S "[") 1 ∧
      loc.end_line_character_number =
        min (errColno (S "[") 1 + 1) (max 1 (lineLengthAt (S "[") (errLineno (S "[") 1))) :=
  C7_error_location (S "[") 1 rfl

/-- C8 counterexample: at a string-kind root, `get` with a string key raises
`TypeError` instead of returning the default, refuting the claim that `get`
never fails. -/
theorem C8_get_typeerror :
    c8tj.location.kind = S "string" ∧
    tjGet c8tj (.str (S "x")) = .error .typeError :=
  ⟨rfl, rfl⟩

/-- C8 witness: the amended not-found behaviour at a concrete object-kind
context and a missing key. -/
theorem C8_not_found_witness :
    (∀ e, tjGetItem adaTJ (.str (S "missing")) = .error e → ∃ k, e = .keyError k) ∧
    (∀ e, tjGetItem adaTJ (.str (S "missing")) = .error e →
       tjGet adaTJ (.str (S "missing")) = .ok none) ∧
    (∀ r, tjGetItem adaTJ (.str (S "missing")) = .ok r →
       tjGet adaTJ (.str (S "missing")) = .ok (some r)) ∧
    (tjContains adaTJ (.str (S "missing")) = true ↔
       ∃ r, tjGetItem adaTJ (.str (S "missing")) = .ok r) :=
  C8_not_found adaTJ (.str (S "missing")) (by decide)

/-- C9 witness: the pointer/dot-path agreement at a concrete pointer. -/
theorem C9_pointer_roundtrip_witness :
    tjGetItem dummyTJ (.str (S "/user/name")) =
      tjGetItem dummyTJ (.str (pointerToDot (S "/user/name"))) ∧
    pointerToDot [] = S "$" ∧ pointerToDot ['/'] = S "$" ∧
    unescapeTok (S "a~1b~0c") = S "a/b~c" :=
  C9_pointer_roundtrip dummyTJ (S "/user/name") (by decide)

/-- C10 counterexample: empty input with `raise_on_error=True` raises the
decode error, not the claimed validation error. -/
theorem C10_empty_decode_error :
    tjInit [] true = .error (.decodeError 0) ∧ PyExc.decodeError 0 ≠ .validationError :=
  ⟨rfl, by decide⟩

/-- C10 witness: a valid object followed by two newlines fails construction
with a validation error even with `raise_on_error=True`. -/
theorem C10_eager_fallback_witness :
    tjInit c10text true = .error .validationError :=
  (C10_eager_fallback c10text true (by decide)).2 c10map rfl
